import Mathlib

/-!
Verification development for the AtCoder submission synchronization tool
(`fetch.py`).  The Python source is shallowly embedded: pure fragments become
Lean functions, the filesystem side effects of the fetch loop become explicit
state passing over a `World` value, and the external collaborators (HTTP
client, browser rendering session) are passed in as parameters.
-/

/-- One submission record, as produced by the history query
(`Submission.__init__` keeps `id`, `contest_id`, `problem_id`,
`epoch_second`, `language`, `result`). -/
structure Submission where
  id : Nat
  contest_id : String
  problem_id : String
  epoch_second : Nat
  language : String
  result : String
deriving DecidableEq

/-- Embeds `Submission.is_ac`: `self.result == "AC"`. -/
def Submission.is_ac (s : Submission) : Bool :=
  decide (s.result = "AC")

/-! ### Python dict embedding

A Python `dict` is embedded as an association list in insertion order.
`dict[k] = v` overwrites the value in place when the key is present and
appends a new entry otherwise; lookup returns the (unique) entry's value. -/

/-- Key-membership test of a Python dict (`k in d`). -/
def dhas {κ ν : Type} [DecidableEq κ] : List (κ × ν) → κ → Bool
  | [], _ => false
  | p :: d, k => if p.1 = k then true else dhas d k

/-- Lookup in a Python dict (`d[k]`, as an `Option`). -/
def dfind {κ ν : Type} [DecidableEq κ] : List (κ × ν) → κ → Option ν
  | [], _ => none
  | p :: d, k => if p.1 = k then some p.2 else dfind d k

/-- Assignment `d[k] = v` of a Python dict: overwrite in place when the key
is present, append otherwise. -/
def dinsert {κ ν : Type} [DecidableEq κ] (d : List (κ × ν)) (k : κ) (v : ν) :
    List (κ × ν) :=
  if dhas d k then d.map (fun p => if p.1 = k then (k, v) else p)
  else d ++ [(k, v)]

/-- The value view of a Python dict (`d.values()`, in insertion order). -/
def dvalues {κ ν : Type} (d : List (κ × ν)) : List ν := d.map Prod.snd

theorem dhas_eq_false {κ ν : Type} [DecidableEq κ] {d : List (κ × ν)} {k : κ}
    (h : dhas d k = false) : ∀ p ∈ d, p.1 ≠ k := by
  induction d with
  | nil => intro p hp; cases hp
  | cons q d ih =>
    intro p hp
    rw [dhas] at h
    by_cases hq : q.1 = k
    · simp [hq] at h
    · rcases List.mem_cons.mp hp with hp' | hp'
      · rw [hp']; exact hq
      · exact ih (by simpa [hq] using h) p hp'

theorem dhas_eq_true {κ ν : Type} [DecidableEq κ] {d : List (κ × ν)} {k : κ}
    (h : dhas d k = true) : ∃ p ∈ d, p.1 = k := by
  induction d with
  | nil => simp [dhas] at h
  | cons q d ih =>
    rw [dhas] at h
    by_cases hq : q.1 = k
    · exact ⟨q, List.mem_cons_self q d, hq⟩
    · rcases ih (by simpa [hq] using h) with ⟨p, hp, hpk⟩
      exact ⟨p, List.mem_cons_of_mem q hp, hpk⟩

theorem dfind_map_overwrite {κ ν : Type} [DecidableEq κ]
    {d : List (κ × ν)} {k : κ} {v : ν} (h : dhas d k = true) :
    dfind (d.map (fun p => if p.1 = k then (k, v) else p)) k = some v := by
  induction d with
  | nil => simp [dhas] at h
  | cons q d ih =>
    rw [dhas] at h
    by_cases hq : q.1 = k
    · simp [dfind, hq]
    · rw [List.map_cons, dfind]
      simp only [if_neg hq]
      exact ih (by simpa [hq] using h)

theorem dfind_append_single_absent {κ ν : Type} [DecidableEq κ]
    {d : List (κ × ν)} {k : κ} (v : ν) (h : ∀ p ∈ d, p.1 ≠ k) :
    dfind (d ++ [(k, v)]) k = some v := by
  induction d with
  | nil => simp [dfind]
  | cons q d ih =>
    rw [List.cons_append, dfind]
    rw [if_neg (h q (List.mem_cons_self q d))]
    exact ih (fun p hp => h p (List.mem_cons_of_mem q hp))

theorem dfind_append_single_ne {κ ν : Type} [DecidableEq κ]
    (d : List (κ × ν)) (k k' : κ) (v : ν) (hne : k' ≠ k) :
    dfind (d ++ [(k, v)]) k' = dfind d k' := by
  induction d with
  | nil =>
    simp only [List.nil_append, dfind]
    rw [if_neg (fun hc : k = k' => hne hc.symm)]
  | cons q d ih =>
    rw [List.cons_append, dfind, dfind]
    by_cases hq : q.1 = k'
    · simp [hq]
    · simp only [if_neg hq]; exact ih

theorem dfind_map_overwrite_ne {κ ν : Type} [DecidableEq κ]
    (d : List (κ × ν)) (k k' : κ) (v : ν) (hne : k' ≠ k) :
    dfind (d.map (fun p => if p.1 = k then (k, v) else p)) k' = dfind d k' := by
  induction d with
  | nil => simp [dfind]
  | cons q d ih =>
    rw [List.map_cons, dfind, dfind]
    by_cases hq : q.1 = k
    · have h1 : ((k, v) : κ × ν).1 ≠ k' := fun hc => hne hc.symm
      have hq' : q.1 ≠ k' := by rw [hq]; exact fun hc => hne hc.symm
      simp only [if_pos hq, if_neg h1, if_neg hq']
      exact ih
    · simp only [if_neg hq]
      by_cases hq' : q.1 = k'
      · simp [hq']
      · simp only [if_neg hq']; exact ih

theorem dfind_dinsert_self {κ ν : Type} [DecidableEq κ]
    (d : List (κ × ν)) (k : κ) (v : ν) :
    dfind (dinsert d k v) k = some v := by
  rw [dinsert]
  by_cases h : dhas d k = true
  · rw [if_pos h]; exact dfind_map_overwrite h
  · have hfalse : dhas d k = false := by
      cases hh : dhas d k
      · rfl
      · exact absurd hh h
    rw [if_neg h]
    exact dfind_append_single_absent v (dhas_eq_false hfalse)

theorem dfind_dinsert_ne {κ ν : Type} [DecidableEq κ]
    (d : List (κ × ν)) (k k' : κ) (v : ν) (hne : k' ≠ k) :
    dfind (dinsert d k v) k' = dfind d k' := by
  rw [dinsert]
  by_cases h : dhas d k
  · rw [if_pos h]; exact dfind_map_overwrite_ne d k k' v hne
  · rw [if_neg h]; exact dfind_append_single_ne d k k' v hne

/-! ### Latest-accepted selection (`_get_latest_ac_subs_from_atcoder_problems`)

The Python code filters the history to `AC` submissions, stable-sorts them
ascending by `epoch_second` (Python's `list.sort` is stable), and folds them
into a dict keyed by `problem_id`, each assignment overwriting the previous
entry.  The insertion sort below is stable: an element is inserted before the
first element with a strictly greater key, so equal keys keep their original
relative order, matching Python's sort. -/

/-- Stable insertion of a submission into a list sorted ascending by
`epoch_second`. -/
def insert_by_epoch (s : Submission) : List Submission → List Submission
  | [] => [s]
  | t :: ts =>
    if t.epoch_second < s.epoch_second then t :: insert_by_epoch s ts
    else s :: t :: ts

/-- Stable sort ascending by `epoch_second`, embedding
`ac_subs.sort(key=lambda s: s.epoch_second)`. -/
def sort_by_epoch : List Submission → List Submission
  | [] => []
  | s :: rest => insert_by_epoch s (sort_by_epoch rest)

theorem mem_insert_by_epoch {u s : Submission} {l : List Submission} :
    u ∈ insert_by_epoch s l ↔ u = s ∨ u ∈ l := by
  induction l with
  | nil => simp [insert_by_epoch]
  | cons t ts ih =>
    rw [insert_by_epoch]
    by_cases h : t.epoch_second < s.epoch_second
    · rw [if_pos h]
      simp only [List.mem_cons, ih]
      tauto
    · rw [if_neg h]
      simp only [List.mem_cons]

theorem mem_sort_by_epoch {u : Submission} {l : List Submission} :
    u ∈ sort_by_epoch l ↔ u ∈ l := by
  induction l with
  | nil => simp [sort_by_epoch]
  | cons s rest ih =>
    rw [sort_by_epoch, mem_insert_by_epoch, ih, List.mem_cons]

theorem pairwise_insert_by_epoch {s : Submission} {l : List Submission}
    (h : l.Pairwise (fun a b => a.epoch_second ≤ b.epoch_second)) :
    (insert_by_epoch s l).Pairwise
      (fun a b => a.epoch_second ≤ b.epoch_second) := by
  induction l with
  | nil => simp [insert_by_epoch]
  | cons t ts ih =>
    rw [List.pairwise_cons] at h
    rw [insert_by_epoch]
    by_cases hlt : t.epoch_second < s.epoch_second
    · rw [if_pos hlt]
      rw [List.pairwise_cons]
      constructor
      · intro u hu
        rcases mem_insert_by_epoch.mp hu with hu' | hu'
        · rw [hu']; exact Nat.le_of_lt hlt
        · exact h.1 u hu'
      · exact ih h.2
    · rw [if_neg hlt]
      rw [List.pairwise_cons]
      constructor
      · intro u hu
        rcases List.mem_cons.mp hu with hu' | hu'
        · rw [hu']; exact Nat.le_of_not_lt hlt
        · exact Nat.le_trans (Nat.le_of_not_lt hlt) (h.1 u hu')
      · exact List.pairwise_cons.mpr h

theorem pairwise_sort_by_epoch (l : List Submission) :
    (sort_by_epoch l).Pairwise (fun a b => a.epoch_second ≤ b.epoch_second) := by
  induction l with
  | nil => simp [sort_by_epoch]
  | cons s rest ih => exact pairwise_insert_by_epoch ih

/-- The fold `for sub in ac_subs: latest_ac_subs_dic[sub.problem_id] = sub`,
generalized over the starting dict. -/
def fold_latest (d : List (String × Submission)) (l : List Submission) :
    List (String × Submission) :=
  l.foldl (fun d s => dinsert d s.problem_id s) d

/-- The last submission of `l` whose `problem_id` is `k`, if any; this is the
entry that survives the overwriting fold. -/
def last_with_pid : List Submission → String → Option Submission
  | [], _ => none
  | s :: rest, k =>
    match last_with_pid rest k with
    | some v => some v
    | none => if s.problem_id = k then some s else none

theorem last_with_pid_cons_none {rest : List Submission} {k : String}
    (s : Submission) (h : last_with_pid rest k = none) :
    last_with_pid (s :: rest) k =
      if s.problem_id = k then some s else none := by
  rw [last_with_pid, h]

theorem last_with_pid_cons_some {rest : List Submission} {k : String}
    {v : Submission} (s : Submission) (h : last_with_pid rest k = some v) :
    last_with_pid (s :: rest) k = some v := by
  rw [last_with_pid, h]

theorem last_with_pid_eq_none {l : List Submission} {k : String}
    (h : last_with_pid l k = none) : ∀ u ∈ l, u.problem_id ≠ k := by
  induction l with
  | nil => intro u hu; cases hu
  | cons s rest ih =>
    intro u hu
    cases hlast : last_with_pid rest k with
    | none =>
      rw [last_with_pid_cons_none s hlast] at h
      rcases List.mem_cons.mp hu with hu' | hu'
      · intro hc
        rw [hu'] at hc
        rw [if_pos hc] at h
        cases h
      · exact ih hlast u hu'
    | some w =>
      rw [last_with_pid_cons_some s hlast] at h
      cases h

theorem last_with_pid_mem {l : List Submission} {k : String} {v : Submission}
    (h : last_with_pid l k = some v) : v ∈ l ∧ v.problem_id = k := by
  induction l with
  | nil => cases h
  | cons s rest ih =>
    cases hlast : last_with_pid rest k with
    | none =>
      rw [last_with_pid_cons_none s hlast] at h
      by_cases hs : s.problem_id = k
      · rw [if_pos hs] at h
        rw [Option.some.injEq] at h
        rw [← h]
        exact ⟨List.mem_cons_self s rest, hs⟩
      · rw [if_neg hs] at h; cases h
    | some w =>
      rw [last_with_pid_cons_some s hlast] at h
      rw [Option.some.injEq] at h
      rcases ih (h ▸ hlast) with ⟨h1, h2⟩
      exact ⟨List.mem_cons_of_mem s h1, h2⟩

theorem last_with_pid_max {l : List Submission} {k : String} {v : Submission}
    (hsort : l.Pairwise (fun a b => a.epoch_second ≤ b.epoch_second))
    (h : last_with_pid l k = some v) :
    ∀ u ∈ l, u.problem_id = k → u.epoch_second ≤ v.epoch_second := by
  induction l with
  | nil => intro u hu; cases hu
  | cons s rest ih =>
    intro u hu hup
    rw [List.pairwise_cons] at hsort
    cases hlast : last_with_pid rest k with
    | none =>
      rw [last_with_pid_cons_none s hlast] at h
      by_cases hs : s.problem_id = k
      · rw [if_pos hs, Option.some.injEq] at h
        rcases List.mem_cons.mp hu with hu' | hu'
        · rw [hu', ← h]
        · exact absurd hup (last_with_pid_eq_none hlast u hu')
      · rw [if_neg hs] at h; cases h
    | some w =>
      rw [last_with_pid_cons_some s hlast] at h
      rw [Option.some.injEq] at h
      rcases List.mem_cons.mp hu with hu' | hu'
      · rw [hu', ← h]
        exact hsort.1 w (last_with_pid_mem hlast).1
      · exact ih hsort.2 (h ▸ hlast) u hu' hup

theorem dfind_fold_latest (l : List Submission) :
    ∀ (d : List (String × Submission)) (k : String),
      dfind (fold_latest d l) k =
        match last_with_pid l k with
        | some v => some v
        | none => dfind d k := by
  induction l with
  | nil => intro d k; rfl
  | cons s rest ih =>
    intro d k
    have hstep : fold_latest d (s :: rest) =
        fold_latest (dinsert d s.problem_id s) rest := rfl
    rw [hstep, ih]
    cases hlast : last_with_pid rest k with
    | none =>
      rw [last_with_pid_cons_none s hlast]
      by_cases hs : s.problem_id = k
      · rw [if_pos hs, hs, dfind_dinsert_self]
      · rw [if_neg hs, dfind_dinsert_ne d s.problem_id k s
          (fun hc => hs hc.symm)]
    | some w =>
      rw [last_with_pid_cons_some s hlast]

theorem fst_overwrite {κ ν : Type} [DecidableEq κ] (k : κ) (v : ν) (p : κ × ν) :
    ((if p.1 = k then (k, v) else p) : κ × ν).1 = p.1 := by
  by_cases h : p.1 = k
  · rw [if_pos h, h]
  · rw [if_neg h]

theorem pairwise_keys_map_overwrite {κ ν : Type} [DecidableEq κ]
    {d : List (κ × ν)} (k : κ) (v : ν)
    (h : d.Pairwise (fun p q => p.1 ≠ q.1)) :
    (d.map (fun p => if p.1 = k then (k, v) else p)).Pairwise
      (fun p q => p.1 ≠ q.1) := by
  induction d with
  | nil => simp
  | cons q d ih =>
    rw [List.pairwise_cons] at h
    rw [List.map_cons, List.pairwise_cons]
    refine ⟨?_, ih h.2⟩
    intro p' hp'
    rcases List.mem_map.mp hp' with ⟨p, hp, hfp⟩
    rw [← hfp]
    simp only [fst_overwrite]
    exact h.1 p hp

theorem pairwise_keys_dinsert {κ ν : Type} [DecidableEq κ]
    {d : List (κ × ν)} (k : κ) (v : ν)
    (h : d.Pairwise (fun p q => p.1 ≠ q.1)) :
    (dinsert d k v).Pairwise (fun p q => p.1 ≠ q.1) := by
  rw [dinsert]
  by_cases hh : dhas d k
  · rw [if_pos hh]
    exact pairwise_keys_map_overwrite k v h
  · rw [if_neg hh]
    rw [List.pairwise_append]
    refine ⟨h, List.pairwise_singleton _ _, ?_⟩
    intro p hp p' hp'
    have hfalse : dhas d k = false := by
      cases hc : dhas d k
      · rfl
      · exact absurd hc hh
    have : p' = (k, v) := by simpa using hp'
    rw [this]
    exact dhas_eq_false hfalse p hp

theorem mem_dinsert {κ ν : Type} [DecidableEq κ]
    {d : List (κ × ν)} {k : κ} {v : ν} {p : κ × ν}
    (h : p ∈ dinsert d k v) : p ∈ d ∨ p = (k, v) := by
  rw [dinsert] at h
  by_cases hh : dhas d k
  · rw [if_pos hh] at h
    rcases List.mem_map.mp h with ⟨q, hq, hfq⟩
    by_cases hqk : q.1 = k
    · right
      rw [← hfq]
      simp [hqk]
    · left
      rw [← hfq]
      simp only [if_neg hqk]
      exact hq
  · rw [if_neg hh] at h
    rcases List.mem_append.mp h with h' | h'
    · exact Or.inl h'
    · right; simpa using h'

theorem dfind_of_mem {κ ν : Type} [DecidableEq κ]
    {d : List (κ × ν)} {k : κ} {v : ν}
    (hnd : d.Pairwise (fun p q => p.1 ≠ q.1)) (h : (k, v) ∈ d) :
    dfind d k = some v := by
  induction d with
  | nil => cases h
  | cons q d ih =>
    rw [List.pairwise_cons] at hnd
    rw [dfind]
    rcases List.mem_cons.mp h with h' | h'
    · rw [← h']
      simp
    · have hqk : q.1 ≠ k := fun hc => hnd.1 (k, v) h' (by rw [hc])
      rw [if_neg hqk]
      exact ih hnd.2 h'

theorem fold_latest_invariant (l : List Submission) :
    ∀ d : List (String × Submission),
      d.Pairwise (fun p q => p.1 ≠ q.1) →
      (fold_latest d l).Pairwise (fun p q => p.1 ≠ q.1) ∧
      ∀ p ∈ fold_latest d l, p ∈ d ∨ (p.2 ∈ l ∧ p.2.problem_id = p.1) := by
  induction l with
  | nil => exact fun d hd => ⟨hd, fun p hp => Or.inl hp⟩
  | cons s rest ih =>
    intro d hd
    have hstep : fold_latest d (s :: rest) =
        fold_latest (dinsert d s.problem_id s) rest := rfl
    rw [hstep]
    have hd' := pairwise_keys_dinsert s.problem_id s hd
    rcases ih (dinsert d s.problem_id s) hd' with ⟨h1, h2⟩
    refine ⟨h1, fun p hp => ?_⟩
    rcases h2 p hp with hp' | hp'
    · rcases mem_dinsert hp' with hp'' | hp''
      · exact Or.inl hp''
      · right
        rw [hp'']
        exact ⟨List.mem_cons_self s rest, rfl⟩
    · exact Or.inr ⟨List.mem_cons_of_mem s hp'.1, hp'.2⟩

/-- Embeds `_get_latest_ac_subs_from_atcoder_problems`, with the raw API
response passed in as the `subs` list (the HTTP call and the `results.json`
audit dump are external I/O): filter to `AC`, stable-sort ascending by
`epoch_second`, fold into a dict keyed by `problem_id` with overwrite, and
return the dict's values. -/
def get_latest_ac_subs (subs : List Submission) : List Submission :=
  dvalues (fold_latest [] (sort_by_epoch (subs.filter (fun s => s.is_ac))))

theorem latest_pid_pairwise (subs : List Submission) :
    (get_latest_ac_subs subs).Pairwise
      (fun a b => a.problem_id ≠ b.problem_id) := by
  rcases fold_latest_invariant (sort_by_epoch (subs.filter (fun s => s.is_ac)))
      [] List.Pairwise.nil with ⟨h1, h2⟩
  rw [get_latest_ac_subs, dvalues, List.pairwise_map]
  refine List.Pairwise.imp_of_mem ?_ h1
  intro p q hp hq hne
  rcases h2 p hp with hp' | hp'
  · cases hp'
  rcases h2 q hq with hq' | hq'
  · cases hq'
  rw [hp'.2, hq'.2]
  exact hne

theorem latest_mem_max (subs : List Submission) :
    ∀ v ∈ get_latest_ac_subs subs, v ∈ subs ∧ v.result = "AC" ∧
      ∀ u ∈ subs, u.result = "AC" → u.problem_id = v.problem_id →
        u.epoch_second ≤ v.epoch_second := by
  intro v hv
  rcases fold_latest_invariant (sort_by_epoch (subs.filter (fun s => s.is_ac)))
      [] List.Pairwise.nil with ⟨h1, h2⟩
  rw [get_latest_ac_subs, dvalues] at hv
  rcases List.mem_map.mp hv with ⟨p, hp, hpv⟩
  rcases h2 p hp with hp' | hp'
  · cases hp'
  have hvsort : v ∈ sort_by_epoch (subs.filter (fun s => s.is_ac)) := by
    rw [← hpv]; exact hp'.1
  have hvfilter := mem_sort_by_epoch.mp hvsort
  rw [List.mem_filter] at hvfilter
  have hvac : v.result = "AC" := of_decide_eq_true hvfilter.2
  refine ⟨hvfilter.1, hvac, ?_⟩
  intro u hu huac hup
  have hpfst : p = (v.problem_id, v) := by
    rcases p with ⟨k, w⟩
    have hw : w = v := hpv
    rw [hw]
    rw [hw] at hp'
    have hk : k = v.problem_id := by
      have h3 := hp'.2
      simpa using h3.symm
    rw [hk]
  have hfind : dfind (fold_latest []
      (sort_by_epoch (subs.filter (fun s => s.is_ac)))) v.problem_id =
      some v := dfind_of_mem h1 (hpfst ▸ hp)
  rw [dfind_fold_latest] at hfind
  cases hlast : last_with_pid
      (sort_by_epoch (subs.filter (fun s => s.is_ac))) v.problem_id with
  | none =>
    rw [hlast] at hfind
    cases hfind
  | some w =>
    rw [hlast] at hfind
    rw [Option.some.injEq] at hfind
    have husort : u ∈ sort_by_epoch (subs.filter (fun s => s.is_ac)) := by
      rw [mem_sort_by_epoch, List.mem_filter]
      exact ⟨hu, decide_eq_true huac⟩
    have := last_with_pid_max (pairwise_sort_by_epoch _) hlast u husort hup
    rw [hfind] at this
    exact this

/-- Submission records of the spec's C1 scenario (`contest_id` and `language`
are not fixed by the scenario; concrete values are chosen). -/
def spec_sub1 : Submission := ⟨1, "abc", "abc_a", 100, "Python (3.8.2)", "AC"⟩

/-- Second record of the C1 scenario. -/
def spec_sub2 : Submission := ⟨2, "abc", "abc_a", 200, "Python (3.8.2)", "AC"⟩

/-- Third record of the C1 scenario. -/
def spec_sub3 : Submission := ⟨3, "abc", "abc_a", 300, "Python (3.8.2)", "WA"⟩

/-- C1: for every input sequence of submission records, the latest-accepted
selection yields at most one record per `problem_id`, and each selected
record is an `AC` record of the input whose `epoch_second` is the maximum
among all `AC` records of the input sharing that `problem_id`; on the
three-record scenario history the selection is exactly the record with
id 2. -/
theorem latest_ac_selection_spec :
    (∀ hist : List Submission,
      (get_latest_ac_subs hist).Pairwise
        (fun a b => a.problem_id ≠ b.problem_id) ∧
      ∀ v ∈ get_latest_ac_subs hist, v ∈ hist ∧ v.result = "AC" ∧
        ∀ u ∈ hist, u.result = "AC" → u.problem_id = v.problem_id →
          u.epoch_second ≤ v.epoch_second) ∧
    get_latest_ac_subs [spec_sub1, spec_sub2, spec_sub3] = [spec_sub2] := by
  refine ⟨fun hist => ⟨latest_pid_pairwise hist, latest_mem_max hist⟩, ?_⟩
  decide

/-- Closed instance of C1: the theorem applied to the scenario history and
the selected record, with all hypotheses discharged on concrete values. -/
theorem latest_ac_selection_spec_witness :
    spec_sub2 ∈ [spec_sub1, spec_sub2, spec_sub3] ∧
    spec_sub2.result = "AC" ∧
    spec_sub1.epoch_second ≤ spec_sub2.epoch_second := by
  have h := (latest_ac_selection_spec.1 [spec_sub1, spec_sub2, spec_sub3]).2
    spec_sub2 (by decide)
  exact ⟨h.1, h.2.1, h.2.2 spec_sub1 (by decide) (by decide) (by decide)⟩

/-! ### Problem id splitting (`Submission._split_problem_id` and friends)

`_split_problem_id` runs `re.search(r'^(.+?)_(.)$', problem_id)`.  Both
anchors are present and group 2 is exactly one character, so a match forces
the second-to-last character of the search region to be `_`: group 1 is
everything before that underscore, group 2 the final character.  `.` does
not match a newline, and `$` may also match just before one trailing
newline.  `get_problem_id_postfix` and `get_contest_id_from_problem_id`
`assert` that the search succeeded; the failed assertion is embedded as
`none`. -/

/-- Match of `^(.+?)_(.)$` on a fixed search region (anchored at both
ends, no newline inside). -/
def split_core (core : List Char) : Option (List Char × Char) :=
  match core.reverse with
  | c :: u :: r0 :: rs =>
    if u = '_' ∧ c ≠ '\n' ∧ '\n' ∉ (r0 :: rs) then some ((r0 :: rs).reverse, c)
    else none
  | _ => none

/-- Embeds `_split_problem_id` (`re.search` with the anchored pattern): the
region is the whole string, or the string minus one trailing newline, where
`$` may also match. -/
def split_problem_id (s : String) : Option (String × Char) :=
  let cs := s.toList
  let core := if cs.getLast? = some '\n' then cs.dropLast else cs
  (split_core core).map (fun p => (p.1.asString, p.2))

/-- Embeds `get_problem_id_postfix`: group 2 of the match, with a digit
mapped by `chr(int(postfix) + ord('a') - 1)` (`Char.isDigit` embeds the
single-character `str.isdigit` on the ASCII digits); the failed `assert` on
a non-matching id is `none`. -/
def get_problem_id_trailing (s : String) : Option Char :=
  (split_problem_id s).map (fun p =>
    if p.2.isDigit then Char.ofNat (p.2.toNat - '0'.toNat + 'a'.toNat - 1)
    else p.2)

/-- Embeds `get_contest_id_from_problem_id`: group 1 of the match; the
failed `assert` on a non-matching id is `none`. -/
def get_contest_id_from_problem_id (s : String) : Option String :=
  (split_problem_id s).map Prod.fst

/-- Counterexample to C8 as stated: `"a_bc"` contains an underscore, but the
final underscore-delimited token `"bc"` has two characters, so the regular
expression (whose group 2 is a single character) does not match and both
accessors fail their assertion instead of returning the token. -/
theorem problem_id_split_cex :
    '_' ∈ "a_bc".toList ∧ get_problem_id_trailing "a_bc" = none ∧
    get_contest_id_from_problem_id "a_bc" = none := by decide

/-- C8 (amended): for every problem id whose final underscore-delimited
token is a single character — the id is `t ++ "_" ++ c` with `t` nonempty
and newline-free and `c` not a newline — the trailing accessor returns `c`,
mapped through `chr(int(c) + ord('a') - 1)` when `c` is a digit, and the
contest accessor returns `t`; ids with a longer (or empty) final token fail
the assertion instead. -/
theorem problem_id_split_amended (t : List Char) (c : Char)
    (ht : t ≠ []) (hnl : '\n' ∉ t) (hc : c ≠ '\n') :
    get_problem_id_trailing (t ++ ['_', c]).asString =
      some (if c.isDigit then Char.ofNat (c.toNat - '0'.toNat + 'a'.toNat - 1)
        else c) ∧
    get_contest_id_from_problem_id (t ++ ['_', c]).asString =
      some t.asString := by
  have hlist : ((t ++ ['_', c]).asString).toList = t ++ ['_', c] :=
    List.toList_asString _
  have hlast : (t ++ ['_', c]).getLast? = some c := by
    have h0 : t ++ ['_', c] = (t ++ ['_']) ++ [c] := by simp
    rw [h0, List.getLast?_concat]
  have hsplit : split_problem_id (t ++ ['_', c]).asString =
      some (t.asString, c) := by
    rw [split_problem_id]
    simp only [hlist, hlast]
    rw [if_neg (by simp [hc])]
    have hrev : (t ++ ['_', c]).reverse = c :: '_' :: t.reverse := by
      rw [List.reverse_append]
      rfl
    have hcore : split_core (t ++ ['_', c]) = some (t, c) := by
      rcases hd : t.reverse with _ | ⟨r0, rs⟩
      · exact absurd (by simpa using congrArg List.reverse hd) ht
      · have hmem : '\n' ∉ (r0 :: rs) := by
          rw [← hd, List.mem_reverse]
          exact hnl
        simp only [split_core, hrev, hd]
        rw [if_pos ⟨trivial, hc, hmem⟩, ← hd, List.reverse_reverse]
    rw [hcore]
    rfl
  constructor
  · rw [get_problem_id_trailing, hsplit]
    rfl
  · rw [get_contest_id_from_problem_id, hsplit]
    rfl

/-- Closed instance of C8 (amended) at the spec's two scenarios: the id
`codefestival_2016_qualB_a` yields suffix `a` and contest prefix
`codefestival_2016_qualB`, and a numeric suffix `3` is mapped to `c`. -/
theorem problem_id_split_amended_witness :
    get_problem_id_trailing "codefestival_2016_qualB_a" = some 'a' ∧
    get_contest_id_from_problem_id "codefestival_2016_qualB_a" =
      some "codefestival_2016_qualB" ∧
    get_problem_id_trailing "abc999_3" = some 'c' := by
  have h1 := problem_id_split_amended "codefestival_2016_qualB".toList 'a'
    (by decide) (by decide) (by decide)
  have h2 := problem_id_split_amended "abc999".toList '3'
    (by decide) (by decide) (by decide)
  refine ⟨?_, ?_, ?_⟩
  · have := h1.1
    rw [show ("codefestival_2016_qualB".toList ++ ['_', 'a']).asString =
      "codefestival_2016_qualB_a" from by decide] at this
    rw [this]
    decide
  · have := h1.2
    rw [show ("codefestival_2016_qualB".toList ++ ['_', 'a']).asString =
      "codefestival_2016_qualB_a" from by decide] at this
    rw [this]
    decide
  · have := h2.1
    rw [show ("abc999".toList ++ ['_', '3']).asString = "abc999_3" from by
      decide] at this
    rw [this]
    decide

/-! ### Language to filename mapping (`_get_file_path`) -/

/-- Prefix test: does the needle (second argument) start the haystack
(first argument)?  The match examines the needle first (and the recursion
is structural on it), so an empty needle succeeds on any haystack. -/
def chars_start_with (hay needle : List Char) : Bool :=
  match needle with
  | [] => true
  | n :: ns =>
    match hay with
    | [] => false
    | h :: hs => decide (h = n) && chars_start_with hs ns
termination_by structural needle

/-- Substring test on character lists. -/
def chars_have_sub : List Char → List Char → Bool
  | [], needle => chars_start_with [] needle
  | h :: hs, needle =>
    chars_start_with (h :: hs) needle || chars_have_sub hs needle

/-- Python's substring containment `needle in hay` on strings. -/
def str_has_sub (hay needle : String) : Bool :=
  chars_have_sub hay.toList needle.toList

/-- Embeds `_get_file_path`, restricted to the filename it chooses (the
problem directory is carried separately by the caller): `Main.py` when the
label contains `Python` or `PyPy`, otherwise `Main.go` when it contains
`Go`; any other label raises (the raised value carries the label, embedded
as `Except.error`). -/
def get_file_name (lang : String) : Except String String :=
  if str_has_sub lang "Python" || str_has_sub lang "PyPy" then
    Except.ok "Main.py"
  else if str_has_sub lang "Go" then Except.ok "Main.go"
  else Except.error lang

instance instExceptDecidableEq {ε α : Type} [DecidableEq ε] [DecidableEq α] :
    DecidableEq (Except ε α) := fun x y =>
  match x, y with
  | Except.ok a, Except.ok b =>
    if h : a = b then Decidable.isTrue (by rw [h])
    else Decidable.isFalse (by simp [h])
  | Except.error a, Except.error b =>
    if h : a = b then Decidable.isTrue (by rw [h])
    else Decidable.isFalse (by simp [h])
  | Except.ok _, Except.error _ => Decidable.isFalse (by simp)
  | Except.error _, Except.ok _ => Decidable.isFalse (by simp)

/-- Counterexample to C7 as stated: the label `GoPython` contains `Go`, but
because it also contains `Python` and that branch is checked first, the
mapping returns the Python filename, not the Go one — so "returns Main.go
exactly when the label contains Go" fails. -/
theorem file_name_mapping_cex :
    str_has_sub "GoPython" "Go" = true ∧
    get_file_name "GoPython" = Except.ok "Main.py" ∧
    get_file_name "GoPython" ≠ Except.ok "Main.go" := by decide

/-- C7 (amended): the mapping returns `Main.py` exactly when the label
contains `Python` or `PyPy`; it returns `Main.go` exactly when the label
contains `Go` and neither `Python` nor `PyPy`; and for every other label it
raises the unsupported-language error carrying the label, before any fetch
(no filename is guessed). -/
theorem file_name_mapping_amended (lang : String) :
    (get_file_name lang = Except.ok "Main.py" ↔
      (str_has_sub lang "Python" = true ∨ str_has_sub lang "PyPy" = true)) ∧
    (get_file_name lang = Except.ok "Main.go" ↔
      (str_has_sub lang "Go" = true ∧
        str_has_sub lang "Python" = false ∧
        str_has_sub lang "PyPy" = false)) ∧
    (get_file_name lang = Except.error lang ↔
      (str_has_sub lang "Python" = false ∧ str_has_sub lang "PyPy" = false ∧
        str_has_sub lang "Go" = false)) := by
  cases hpy : str_has_sub lang "Python" <;>
    cases hpp : str_has_sub lang "PyPy" <;>
      cases hgo : str_has_sub lang "Go" <;>
        simp [get_file_name, hpy, hpp, hgo]

/-- Closed instance of C7 (amended) at the spec's three label families. -/
theorem file_name_mapping_amended_witness :
    get_file_name "Python (3.8.2)" = Except.ok "Main.py" ∧
    get_file_name "Go (1.14.1)" = Except.ok "Main.go" ∧
    get_file_name "Rust (1.42.0)" = Except.error "Rust (1.42.0)" := by
  refine ⟨?_, ?_, ?_⟩
  · exact ((file_name_mapping_amended "Python (3.8.2)").1).mpr
      (Or.inl (by decide))
  · exact ((file_name_mapping_amended "Go (1.14.1)").2.1).mpr
      ⟨by decide, by decide, by decide⟩
  · exact ((file_name_mapping_amended "Rust (1.42.0)").2.2).mpr
      ⟨by decide, by decide, by decide⟩

/-! ### Code extraction (`_get_sub_code`)

`_get_sub_code` reads the code element's `innerHTML`, collects every
non-overlapping match of `<li[^>]*>.*?</li>` left to right, and processes
each match with `re.sub(r'<[^>]+>', '')`, then `re.sub(r'&nbsp;', '')`,
then `html.unescape`, appending a newline, and concatenates the results.
The regular expressions are embedded as character-list scanners with the
same match semantics (`.` and `[^>]` never match greedily past their
delimiters; `.` does not match a newline). -/

/-- Characters of the literal `&nbsp;`. -/
def nbsp_chars : List Char := ['&', 'n', 'b', 's', 'p', ';']

/-- Characters of the literal `&amp;`. -/
def amp_chars : List Char := ['&', 'a', 'm', 'p', ';']

/-- Characters of the literal `&lt;`. -/
def lt_chars : List Char := ['&', 'l', 't', ';']

/-- Characters of the literal `&gt;`. -/
def gt_chars : List Char := ['&', 'g', 't', ';']

/-- Characters of the literal `</li>`. -/
def li_close : List Char := ['<', '/', 'l', 'i', '>']

/-- Characters of the literal `<li`. -/
def li_open : List Char := ['<', 'l', 'i']

/-- One left-to-right pass of `re.sub(r'<[^>]+>', '', line)` as a state
machine: `none` outside a candidate tag; `some acc` inside one, where `acc`
holds (reversed) the characters seen after the opening `<`.  A closed
nonempty tag is dropped; an empty `<>` does not match and is kept; an
unterminated `<...` suffix is flushed verbatim at the end. -/
def strip_tags_go : Option (List Char) → List Char → List Char
  | none, [] => []
  | some acc, [] => '<' :: acc.reverse
  | none, c :: cs =>
    if c = '<' then strip_tags_go (some []) cs
    else c :: strip_tags_go none cs
  | some acc, c :: cs =>
    if c = '>' then
      if acc = [] then '<' :: '>' :: strip_tags_go none cs
      else strip_tags_go none cs
    else strip_tags_go (some (c :: acc)) cs

/-- Embeds `re.sub(r'<[^>]+>', '', line)`. -/
def strip_tags (l : List Char) : List Char := strip_tags_go none l

/-- Embeds `re.sub(r'&nbsp;', '', line)`: remove every non-overlapping,
leftmost-first occurrence of the six characters `&nbsp;` (fuelled; the
wrapper instantiates the fuel with the input length, which bounds the
number of scanning steps). -/
def remove_nbsp_fuel : Nat → List Char → List Char
  | 0, l => l
  | _ + 1, [] => []
  | fuel + 1, c :: cs =>
    if chars_start_with (c :: cs) nbsp_chars then
      remove_nbsp_fuel fuel (cs.drop 5)
    else c :: remove_nbsp_fuel fuel cs

/-- Embeds `re.sub(r'&nbsp;', '', line)`. -/
def remove_nbsp (l : List Char) : List Char := remove_nbsp_fuel l.length l

/-- Embeds `html.unescape` restricted to the named entities that arise in
the markup handled here (`amp`, `lt`, `gt`, `nbsp`; the non-breaking space
is code point 160), as a single left-to-right pass (fuelled; the wrapper
instantiates the fuel with the input length). -/
def unescape_fuel : Nat → List Char → List Char
  | 0, l => l
  | _ + 1, [] => []
  | fuel + 1, c :: cs =>
    if chars_start_with (c :: cs) amp_chars then
      '&' :: unescape_fuel fuel (cs.drop 4)
    else if chars_start_with (c :: cs) lt_chars then
      '<' :: unescape_fuel fuel (cs.drop 3)
    else if chars_start_with (c :: cs) gt_chars then
      '>' :: unescape_fuel fuel (cs.drop 3)
    else if chars_start_with (c :: cs) nbsp_chars then
      Char.ofNat 160 :: unescape_fuel fuel (cs.drop 5)
    else c :: unescape_fuel fuel cs

/-- Embeds `html.unescape` restricted to the entities occurring here. -/
def unescape_chars (l : List Char) : List Char := unescape_fuel l.length l

/-- Scan for the first `>` (the end of `[^>]*>`): the characters before it
and the rest after it; `none` when no `>` remains. -/
def split_until_gt : List Char → Option (List Char × List Char)
  | [] => none
  | c :: cs =>
    if c = '>' then some ([], cs)
    else
      match split_until_gt cs with
      | some p => some (c :: p.1, p.2)
      | none => none

/-- Minimal scan of `.*?</li>`: the body before the first `</li>` and the
rest after it; fails when a newline (which `.` does not match) comes
first, or when no `</li>` follows. -/
def find_close : List Char → Option (List Char × List Char)
  | [] => none
  | c :: cs =>
    if chars_start_with (c :: cs) li_close then some ([], cs.drop 4)
    else if c = '\n' then none
    else
      match find_close cs with
      | some p => some (c :: p.1, p.2)
      | none => none

/-- Match attempt of `<li[^>]*>.*?</li>` anchored at the start of `s`: the
matched block and the rest of the input. -/
def try_li_at (s : List Char) : Option (List Char × List Char) :=
  if chars_start_with s li_open then
    match split_until_gt (s.drop 3) with
    | some p =>
      match find_close p.2 with
      | some q => some (li_open ++ p.1 ++ '>' :: q.1 ++ li_close, q.2)
      | none => none
    | none => none
  else none

/-- Fuelled scan of `re.findall(r'<li[^>]*>.*?</li>', inner_html)`: try a
match at every position, left to right, continuing after each match; the
fuel (instantiated with the input length) bounds the recursion. -/
def find_li_blocks_fuel : Nat → List Char → List (List Char)
  | 0, _ => []
  | _ + 1, [] => []
  | fuel + 1, c :: cs =>
    match try_li_at (c :: cs) with
    | some p => p.1 :: find_li_blocks_fuel fuel p.2
    | none => find_li_blocks_fuel fuel cs

/-- Embeds `re.findall(r'<li[^>]*>.*?</li>', inner_html)`. -/
def find_li_blocks (l : List Char) : List (List Char) :=
  find_li_blocks_fuel l.length l

/-- Per-line processing of `_get_sub_code`: strip tags, drop `&nbsp;`
placeholders, unescape entities, and append a newline terminator. -/
def process_li (li : List Char) : List Char :=
  unescape_chars (remove_nbsp (strip_tags li)) ++ ['\n']

/-- Embeds the extraction part of `_get_sub_code` on the code element's
`innerHTML`, as a character list. -/
def get_sub_code_chars (inner : List Char) : List Char :=
  ((find_li_blocks inner).map process_li).flatten

/-- Embeds the extraction part of `_get_sub_code` (navigation and element
lookup are handled by the caller, see `fetch_sub`). -/
def get_sub_code (inner_html : String) : String :=
  (get_sub_code_chars inner_html.toList).asString

/-! ### Problem directories and the fetch loop (`_fetch_sub`,
`_fetch_from_atcoder`)

Filesystem effects are embedded as explicit state: a `World` maps
(`contest_id`, `problem_id`) keys to problem directories, each holding its
source files and its `metadata.json` ledger.  The browser collaborator is a
`render` parameter returning the code element's `innerHTML` for a
submission page, or `none` when the expected element is absent.  The
`results.json` audit dump, logging and printing are external I/O and are
not part of the state. -/

/-- The per-problem ledger (`metadata.json`): local filename mapped to the
recorded submission. -/
abbrev SubDict := List (String × Submission)

/-- State of one problem directory: source files by name (with contents)
and the ledger (`none` when `metadata.json` does not exist). -/
structure ProblemDir where
  files : List (String × String)
  metadata : Option SubDict
deriving DecidableEq

/-- A freshly created problem directory. -/
def empty_dir : ProblemDir := ⟨[], none⟩

/-- The directory tree under `atcoder-submissions`, keyed by
(`contest_id`, `problem_id`). -/
structure World where
  dirs : List ((String × String) × ProblemDir)
deriving DecidableEq

/-- Directory contents at a key (a missing directory reads as empty). -/
def World.get_dir (w : World) (k : String × String) : ProblemDir :=
  (dfind w.dirs k).getD empty_dir

/-- Replace (or create) the directory at a key. -/
def World.set_dir (w : World) (k : String × String) (d : ProblemDir) :
    World :=
  ⟨dinsert w.dirs k d⟩

/-- Embeds `problem_dir.mkdir(parents=True, exist_ok=True)`: a no-op when
the directory exists, otherwise it is created empty. -/
def World.mkdir (w : World) (k : String × String) : World :=
  if (dfind w.dirs k).isSome then w else ⟨dinsert w.dirs k empty_dir⟩

theorem get_dir_mkdir (w : World) (k k' : String × String) :
    (w.mkdir k).get_dir k' = w.get_dir k' := by
  rw [World.mkdir]
  by_cases h : (dfind w.dirs k).isSome
  · rw [if_pos h]
  · rw [if_neg h]
    by_cases hk : k' = k
    · rw [hk, World.get_dir, World.get_dir]
      show (dfind (dinsert w.dirs k empty_dir) k).getD empty_dir = _
      rw [dfind_dinsert_self]
      rcases hf : dfind w.dirs k with _ | d
      · rfl
      · exact absurd (by rw [hf]; rfl) h
    · rw [World.get_dir, World.get_dir]
      show (dfind (dinsert w.dirs k empty_dir) k').getD empty_dir = _
      rw [dfind_dinsert_ne w.dirs k k' empty_dir hk]

theorem mkdir_has (w : World) (k : String × String) :
    (dfind (w.mkdir k).dirs k).isSome = true := by
  rw [World.mkdir]
  by_cases h : (dfind w.dirs k).isSome
  · rw [if_pos h]; exact h
  · rw [if_neg h]
    show (dfind (dinsert w.dirs k empty_dir) k).isSome = true
    rw [dfind_dinsert_self]
    rfl

theorem mkdir_of_has {w : World} {k : String × String}
    (h : (dfind w.dirs k).isSome = true) : w.mkdir k = w := by
  rw [World.mkdir, if_pos h]

theorem mkdir_has_other (w : World) (k k' : String × String)
    (h : (dfind w.dirs k').isSome = true) :
    (dfind (w.mkdir k).dirs k').isSome = true := by
  rw [World.mkdir]
  by_cases hk : (dfind w.dirs k).isSome
  · rw [if_pos hk]; exact h
  · rw [if_neg hk]
    by_cases he : k' = k
    · show (dfind (dinsert w.dirs k empty_dir) k').isSome = true
      rw [he, dfind_dinsert_self]
      rfl
    · show (dfind (dinsert w.dirs k empty_dir) k').isSome = true
      rw [dfind_dinsert_ne w.dirs k k' empty_dir he]
      exact h

theorem get_dir_set_self (w : World) (k : String × String) (d : ProblemDir) :
    (w.set_dir k d).get_dir k = d := by
  rw [World.set_dir, World.get_dir]
  show (dfind (dinsert w.dirs k d) k).getD empty_dir = d
  rw [dfind_dinsert_self]
  rfl

theorem get_dir_set_ne (w : World) (k k' : String × String) (d : ProblemDir)
    (h : k' ≠ k) : (w.set_dir k d).get_dir k' = w.get_dir k' := by
  rw [World.set_dir, World.get_dir, World.get_dir]
  show (dfind (dinsert w.dirs k d) k').getD empty_dir = _
  rw [dfind_dinsert_ne w.dirs k k' d h]

theorem set_dir_has (w : World) (k k' : String × String) (d : ProblemDir)
    (h : (dfind w.dirs k').isSome = true) :
    (dfind (w.set_dir k d).dirs k').isSome = true := by
  by_cases he : k' = k
  · show (dfind (dinsert w.dirs k d) k').isSome = true
    rw [he, dfind_dinsert_self]
    rfl
  · show (dfind (dinsert w.dirs k d) k').isSome = true
    rw [dfind_dinsert_ne w.dirs k k' d he]
    exact h

/-- Observable events of a run: session creation, navigation to a
submission page (`driver.get`), a completed fetch (file and ledger
written), the pacing delay (`sleep(WAIT_SEC)`), and session teardown
(`driver.quit`). -/
inductive Event where
  | driver_created : Event
  | navigated : String → Nat → Event
  | fetched : Nat → Event
  | slept : Event
  | driver_quit : Event
deriving DecidableEq

/-- Errors a single fetch can raise: the unsupported-language raise of
`_get_file_path`, and the missing `submission-code` element in
`_get_sub_code`. -/
inductive FetchError where
  | unsupported_language : String → FetchError
  | missing_code_element : String → Nat → FetchError
deriving DecidableEq

/-- Result of one `_fetch_sub` call: the directory tree, whether the
rendering session exists, the observable events of the step, and the
raised error if any (in which case the other fields describe the state at
the moment the exception escaped). -/
structure StepResult where
  world : World
  driver : Bool
  events : List Event
  err : Option FetchError
deriving DecidableEq

/-- The skip test of `_fetch_sub`: the target file exists, the ledger has
an entry for the target filename, and that entry's submission id equals
the candidate's id. -/
def skip_check (dir : ProblemDir) (fname : String) (sub : Submission) :
    Bool :=
  (dfind dir.files fname).isSome &&
    match dfind (dir.metadata.getD []) fname with
    | some msub => decide (msub.id = sub.id)
    | none => false

/-- Embeds `_fetch_sub`: create the problem directory, compute the target
filename from the language (raising on an unsupported label), read the
ledger, skip when already synchronized; otherwise lazily create the
session, navigate and extract the code (raising when the code element is
absent), then write the source file, rewrite the whole ledger with the
entry inserted, and sleep. -/
def fetch_sub (render : String → Nat → Option String) (w : World)
    (driver : Bool) (sub : Submission) : StepResult :=
  let key := (sub.contest_id, sub.problem_id)
  let w1 := w.mkdir key
  match get_file_name sub.language with
  | Except.error lang =>
    ⟨w1, driver, [], some (FetchError.unsupported_language lang)⟩
  | Except.ok fname =>
    let dir := w1.get_dir key
    if skip_check dir fname sub then ⟨w1, driver, [], none⟩
    else
      let evs := if driver then [] else [Event.driver_created]
      match render sub.contest_id sub.id with
      | none =>
        ⟨w1, true, evs ++ [Event.navigated sub.contest_id sub.id],
          some (FetchError.missing_code_element sub.contest_id sub.id)⟩
      | some markup =>
        let dir2 : ProblemDir :=
          ⟨dinsert dir.files fname (get_sub_code markup),
            some (dinsert (dir.metadata.getD []) fname sub)⟩
        ⟨w1.set_dir key dir2, true,
          evs ++ [Event.navigated sub.contest_id sub.id,
            Event.fetched sub.id, Event.slept], none⟩

/-- Result of a whole run of the fetch loop. -/
structure RunResult where
  world : World
  events : List Event
  err : Option FetchError
deriving DecidableEq

/-- The loop of `_fetch_from_atcoder`, threading the lazily created
session; an exception aborts the loop at once (no teardown on that path),
while normal completion quits the session exactly when it was created. -/
def run_subs (render : String → Nat → Option String) (w : World)
    (driver : Bool) (evs : List Event) : List Submission → RunResult
  | [] => ⟨w, evs ++ (if driver then [Event.driver_quit] else []), none⟩
  | s :: rest =>
    let r := fetch_sub render w driver s
    match r.err with
    | some e => ⟨r.world, evs ++ r.events, some e⟩
    | none => run_subs render r.world r.driver (evs ++ r.events) rest

/-- Embeds `_fetch_from_atcoder`. -/
def fetch_from_atcoder (render : String → Nat → Option String) (w : World)
    (subs : List Submission) : RunResult :=
  run_subs render w false [] subs

theorem fetch_sub_unsupported {render : String → Nat → Option String}
    {w : World} {driver : Bool} {sub : Submission} {lang : String}
    (hf : get_file_name sub.language = Except.error lang) :
    fetch_sub render w driver sub =
      ⟨w.mkdir (sub.contest_id, sub.problem_id), driver, [],
        some (FetchError.unsupported_language lang)⟩ := by
  simp only [fetch_sub, hf]

theorem fetch_sub_skip {render : String → Nat → Option String} {w : World}
    {driver : Bool} {sub : Submission} {fname : String}
    (hf : get_file_name sub.language = Except.ok fname)
    (hs : skip_check (w.get_dir (sub.contest_id, sub.problem_id)) fname sub
      = true) :
    fetch_sub render w driver sub =
      ⟨w.mkdir (sub.contest_id, sub.problem_id), driver, [], none⟩ := by
  simp only [fetch_sub, hf, get_dir_mkdir]
  rw [if_pos hs]

theorem fetch_sub_miss_none {render : String → Nat → Option String}
    {w : World} {driver : Bool} {sub : Submission} {fname : String}
    (hf : get_file_name sub.language = Except.ok fname)
    (hs : skip_check (w.get_dir (sub.contest_id, sub.problem_id)) fname sub
      = false)
    (hr : render sub.contest_id sub.id = none) :
    fetch_sub render w driver sub =
      ⟨w.mkdir (sub.contest_id, sub.problem_id), true,
        (if driver then [] else [Event.driver_created]) ++
          [Event.navigated sub.contest_id sub.id],
        some (FetchError.missing_code_element sub.contest_id sub.id)⟩ := by
  simp only [fetch_sub, hf, get_dir_mkdir, hr]
  rw [if_neg (by simp [hs])]

theorem fetch_sub_fetch {render : String → Nat → Option String} {w : World}
    {driver : Bool} {sub : Submission} {fname markup : String}
    (hf : get_file_name sub.language = Except.ok fname)
    (hs : skip_check (w.get_dir (sub.contest_id, sub.problem_id)) fname sub
      = false)
    (hr : render sub.contest_id sub.id = some markup) :
    fetch_sub render w driver sub =
      ⟨(w.mkdir (sub.contest_id, sub.problem_id)).set_dir
          (sub.contest_id, sub.problem_id)
          ⟨dinsert (w.get_dir (sub.contest_id, sub.problem_id)).files fname
              (get_sub_code markup),
            some (dinsert
              ((w.get_dir (sub.contest_id, sub.problem_id)).metadata.getD [])
              fname sub)⟩,
        true,
        (if driver then [] else [Event.driver_created]) ++
          [Event.navigated sub.contest_id sub.id, Event.fetched sub.id,
            Event.slept], none⟩ := by
  simp only [fetch_sub, hf, get_dir_mkdir, hr]
  rw [if_neg (by simp [hs])]

/-- C2: once the target filename is computed from the candidate's
language, `_fetch_sub` skips the fetch — no events at all (no rendering
activity, no pacing) and no error, with the directory tree unchanged apart
from creating a missing problem directory — exactly when the target file
exists on disk, the per-problem ledger has an entry for the target
filename, and that entry's submission id equals the candidate's id
(`skip_check`); in every other case the fetch is performed (the submission
page is navigated to). -/
theorem skip_fetch_decision (render : String → Nat → Option String)
    (w : World) (driver : Bool) (sub : Submission) (fname : String)
    (hf : get_file_name sub.language = Except.ok fname) :
    (((fetch_sub render w driver sub).events = [] ∧
        (fetch_sub render w driver sub).err = none) ↔
      skip_check (w.get_dir (sub.contest_id, sub.problem_id)) fname sub
        = true) ∧
    (skip_check (w.get_dir (sub.contest_id, sub.problem_id)) fname sub
        = true →
      fetch_sub render w driver sub =
        ⟨w.mkdir (sub.contest_id, sub.problem_id), driver, [], none⟩ ∧
      ∀ k, (fetch_sub render w driver sub).world.get_dir k = w.get_dir k) ∧
    (skip_check (w.get_dir (sub.contest_id, sub.problem_id)) fname sub
        = false →
      Event.navigated sub.contest_id sub.id ∈
        (fetch_sub render w driver sub).events) := by
  cases hs : skip_check (w.get_dir (sub.contest_id, sub.problem_id)) fname
      sub with
  | false =>
    cases hr : render sub.contest_id sub.id with
    | none =>
      rw [fetch_sub_miss_none hf hs hr]
      exact ⟨by simp, by simp, by simp⟩
    | some markup =>
      rw [fetch_sub_fetch hf hs hr]
      exact ⟨by simp, by simp, by simp⟩
  | true =>
    rw [fetch_sub_skip hf hs]
    exact ⟨by simp, fun _ => ⟨rfl, fun k => get_dir_mkdir w _ k⟩, by simp⟩

/-- Candidate with id 5 of the C2 scenario. -/
def c2_sub5 : Submission := ⟨5, "abc", "abc_a", 100, "Python (3.8.2)", "AC"⟩

/-- Candidate with id 6 of the C2 scenario. -/
def c2_sub6 : Submission := ⟨6, "abc", "abc_a", 200, "Python (3.8.2)", "AC"⟩

/-- Problem directory of the C2 scenario: `Main.py` exists and the ledger
records it as submission 5. -/
def c2_dir : ProblemDir :=
  ⟨[("Main.py", "print(1)\n")], some [("Main.py", c2_sub5)]⟩

/-- World of the C2 scenario. -/
def c2_world : World := ⟨[(("abc", "abc_a"), c2_dir)]⟩

/-- Rendering collaborator of the C2 scenario. -/
def c2_render : String → Nat → Option String :=
  fun _ _ => some "<li>print(2)</li>"

/-- Closed instance of C2 at the spec's scenario: candidate id 5 is
skipped (no events, no error, nothing written), candidate id 6 is fetched
(the page is navigated to). -/
theorem skip_fetch_decision_witness :
    fetch_sub c2_render c2_world false c2_sub5 =
      ⟨c2_world.mkdir ("abc", "abc_a"), false, [], none⟩ ∧
    Event.navigated "abc" 6 ∈
      (fetch_sub c2_render c2_world false c2_sub6).events := by
  constructor
  · exact ((skip_fetch_decision c2_render c2_world false c2_sub5 "Main.py"
      (by decide)).2.1 (by decide)).1
  · exact (skip_fetch_decision c2_render c2_world false c2_sub6 "Main.py"
      (by decide)).2.2 (by decide)

/-- C4: after every successful fetch of a candidate (one that emitted the
`fetched` event and no error), the source file for the computed filename
contains the extracted code, and the ledger is rewritten in full as the
previous mapping with the filename entry inserted/overwritten — so the
ledger entry for that filename is exactly the fetched submission, and in
particular its id. -/
theorem fetch_writes_consistent (render : String → Nat → Option String)
    (w : World) (driver : Bool) (sub : Submission) (fname markup : String)
    (hf : get_file_name sub.language = Except.ok fname)
    (hr : render sub.contest_id sub.id = some markup)
    (hfetch : Event.fetched sub.id ∈
      (fetch_sub render w driver sub).events) :
    (fetch_sub render w driver sub).err = none ∧
    dfind ((fetch_sub render w driver sub).world.get_dir
      (sub.contest_id, sub.problem_id)).files fname =
      some (get_sub_code markup) ∧
    ((fetch_sub render w driver sub).world.get_dir
      (sub.contest_id, sub.problem_id)).metadata =
      some (dinsert
        ((w.get_dir (sub.contest_id, sub.problem_id)).metadata.getD [])
        fname sub) ∧
    dfind (((fetch_sub render w driver sub).world.get_dir
      (sub.contest_id, sub.problem_id)).metadata.getD []) fname =
      some sub := by
  cases hs : skip_check (w.get_dir (sub.contest_id, sub.problem_id)) fname
      sub with
  | false =>
    rw [fetch_sub_fetch hf hs hr] at hfetch ⊢
    refine ⟨rfl, ?_, ?_, ?_⟩
    · simp only [get_dir_set_self]
      exact dfind_dinsert_self _ _ _
    · simp only [get_dir_set_self]
    · simp only [get_dir_set_self, Option.getD_some]
      exact dfind_dinsert_self _ _ _
  | true =>
    rw [fetch_sub_skip hf hs] at hfetch
    cases hfetch

/-- Closed instance of C4: fetching candidate id 6 over the C2 scenario
world records the ledger entry for `Main.py` as submission 6 and stores
the extracted code. -/
theorem fetch_writes_consistent_witness :
    (fetch_sub c2_render c2_world false c2_sub6).err = none ∧
    dfind (((fetch_sub c2_render c2_world false c2_sub6).world.get_dir
      ("abc", "abc_a")).metadata.getD []) "Main.py" = some c2_sub6 ∧
    dfind (((fetch_sub c2_render c2_world false c2_sub6).world.get_dir
      ("abc", "abc_a")).files) "Main.py" = some "print(2)\n" := by
  have h := fetch_writes_consistent c2_render c2_world false c2_sub6
    "Main.py" "<li>print(2)</li>" (by decide) (by decide) (by decide)
  refine ⟨h.1, h.2.2.2, ?_⟩
  have h2 := h.2.1
  rw [show get_sub_code "<li>print(2)</li>" = "print(2)\n" from by decide]
    at h2
  exact h2

/-- C6: when the rendered page lacks the expected code element and the
candidate is not skipped, `_fetch_sub` fails with the missing-element
error, and neither the source file nor any ledger entry is written: the
files and ledger of every problem directory are unchanged. -/
theorem missing_element_no_write (render : String → Nat → Option String)
    (w : World) (driver : Bool) (sub : Submission) (fname : String)
    (hf : get_file_name sub.language = Except.ok fname)
    (hs : skip_check (w.get_dir (sub.contest_id, sub.problem_id)) fname sub
      = false)
    (hr : render sub.contest_id sub.id = none) :
    (fetch_sub render w driver sub).err =
      some (FetchError.missing_code_element sub.contest_id sub.id) ∧
    ∀ k, ((fetch_sub render w driver sub).world.get_dir k).files =
        (w.get_dir k).files ∧
      ((fetch_sub render w driver sub).world.get_dir k).metadata =
        (w.get_dir k).metadata := by
  rw [fetch_sub_miss_none hf hs hr]
  refine ⟨rfl, fun k => ?_⟩
  simp [get_dir_mkdir]

/-- Rendering collaborator whose pages never contain the code element. -/
def c6_render : String → Nat → Option String := fun _ _ => none

/-- Closed instance of C6: over an empty world, fetching candidate id 5
against a page without the code element raises and leaves the problem
directory without files and without a ledger. -/
theorem missing_element_no_write_witness :
    (fetch_sub c6_render ⟨[]⟩ false c2_sub5).err =
      some (FetchError.missing_code_element "abc" 5) ∧
    ((fetch_sub c6_render ⟨[]⟩ false c2_sub5).world.get_dir
      ("abc", "abc_a")).files = [] ∧
    ((fetch_sub c6_render ⟨[]⟩ false c2_sub5).world.get_dir
      ("abc", "abc_a")).metadata = none := by
  have h := missing_element_no_write c6_render ⟨[]⟩ false c2_sub5 "Main.py"
    (by decide) (by decide) rfl
  exact ⟨h.1, (h.2 ("abc", "abc_a")).1, (h.2 ("abc", "abc_a")).2⟩

/-- C10: when the code element is present but its inner markup contains no
line-container matches, extraction returns the empty string and the fetch
is treated as successful: an empty source file is written and the ledger
entry for the candidate is recorded, rather than the fetch failing. -/
theorem empty_li_fetch_success (render : String → Nat → Option String)
    (w : World) (driver : Bool) (sub : Submission) (fname markup : String)
    (hf : get_file_name sub.language = Except.ok fname)
    (hs : skip_check (w.get_dir (sub.contest_id, sub.problem_id)) fname sub
      = false)
    (hr : render sub.contest_id sub.id = some markup)
    (hempty : find_li_blocks markup.toList = []) :
    get_sub_code markup = "" ∧
    (fetch_sub render w driver sub).err = none ∧
    dfind ((fetch_sub render w driver sub).world.get_dir
      (sub.contest_id, sub.problem_id)).files fname = some "" ∧
    dfind (((fetch_sub render w driver sub).world.get_dir
      (sub.contest_id, sub.problem_id)).metadata.getD []) fname =
      some sub := by
  have hcode : get_sub_code markup = "" := by
    rw [get_sub_code, get_sub_code_chars, hempty]
    rfl
  rw [fetch_sub_fetch hf hs hr]
  refine ⟨hcode, rfl, ?_, ?_⟩
  · simp only [get_dir_set_self]
    rw [hcode]
    exact dfind_dinsert_self _ _ _
  · simp only [get_dir_set_self, Option.getD_some]
    exact dfind_dinsert_self _ _ _

/-- Rendering collaborator whose pages contain the code element but no
line containers. -/
def c10_render : String → Nat → Option String := fun _ _ => some "<div></div>"

/-- Closed instance of C10: a page whose code element holds `<div></div>`
extracts to the empty string, and the fetch succeeds, writing an empty
file and recording the ledger entry. -/
theorem empty_li_fetch_success_witness :
    get_sub_code "<div></div>" = "" ∧
    (fetch_sub c10_render ⟨[]⟩ false c2_sub5).err = none ∧
    dfind (((fetch_sub c10_render ⟨[]⟩ false c2_sub5).world.get_dir
      ("abc", "abc_a")).metadata.getD []) "Main.py" = some c2_sub5 := by
  have h := empty_li_fetch_success c10_render ⟨[]⟩ false c2_sub5 "Main.py"
    "<div></div>" (by decide) (by decide) rfl (by decide)
  exact ⟨h.1, h.2.1, h.2.2.2⟩

theorem run_subs_cons_none {render : String → Nat → Option String}
    {w : World} {driver : Bool} {evs : List Event} {s : Submission}
    {rest : List Submission}
    (h : (fetch_sub render w driver s).err = none) :
    run_subs render w driver evs (s :: rest) =
      run_subs render (fetch_sub render w driver s).world
        (fetch_sub render w driver s).driver
        (evs ++ (fetch_sub render w driver s).events) rest := by
  simp only [run_subs, h]

theorem run_subs_cons_some {render : String → Nat → Option String}
    {w : World} {driver : Bool} {evs : List Event} {s : Submission}
    {rest : List Submission} {e : FetchError}
    (h : (fetch_sub render w driver s).err = some e) :
    run_subs render w driver evs (s :: rest) =
      ⟨(fetch_sub render w driver s).world,
        evs ++ (fetch_sub render w driver s).events, some e⟩ := by
  simp only [run_subs, h]

theorem fetch_sub_driver_mono (render : String → Nat → Option String)
    (w : World) (driver : Bool) (sub : Submission) (h : driver = true) :
    (fetch_sub render w driver sub).driver = true := by
  cases hf : get_file_name sub.language with
  | error lang => rw [fetch_sub_unsupported hf]; exact h
  | ok fname =>
    cases hs : skip_check (w.get_dir (sub.contest_id, sub.problem_id))
        fname sub with
    | true => rw [fetch_sub_skip hf hs]; exact h
    | false =>
      cases hr : render sub.contest_id sub.id with
      | none => rw [fetch_sub_miss_none hf hs hr]
      | some markup => rw [fetch_sub_fetch hf hs hr]

theorem fetch_sub_created_driver (render : String → Nat → Option String)
    (w : World) (driver : Bool) (sub : Submission)
    (h : Event.driver_created ∈ (fetch_sub render w driver sub).events) :
    (fetch_sub render w driver sub).driver = true := by
  cases hf : get_file_name sub.language with
  | error lang => rw [fetch_sub_unsupported hf] at h; cases h
  | ok fname =>
    cases hs : skip_check (w.get_dir (sub.contest_id, sub.problem_id))
        fname sub with
    | true => rw [fetch_sub_skip hf hs] at h; cases h
    | false =>
      cases hr : render sub.contest_id sub.id with
      | none => rw [fetch_sub_miss_none hf hs hr]
      | some markup => rw [fetch_sub_fetch hf hs hr]

theorem run_subs_quit (render : String → Nat → Option String) :
    ∀ (subs : List Submission) (w : World) (driver : Bool)
      (evs : List Event),
      (Event.driver_created ∈ evs → driver = true) →
      (run_subs render w driver evs subs).err = none →
      Event.driver_created ∈ (run_subs render w driver evs subs).events →
      Event.driver_quit ∈ (run_subs render w driver evs subs).events := by
  intro subs
  induction subs with
  | nil =>
    intro w driver evs hinv _ hmem
    simp only [run_subs] at hmem ⊢
    cases driver with
    | true => simp
    | false =>
      simp at hmem
      exact absurd (hinv hmem) (by simp)
  | cons s rest ih =>
    intro w driver evs hinv herr hmem
    cases he : (fetch_sub render w driver s).err with
    | some e =>
      rw [run_subs_cons_some he] at herr
      cases herr
    | none =>
      rw [run_subs_cons_none he] at herr hmem ⊢
      refine ih _ _ _ ?_ herr hmem
      intro hin
      rcases List.mem_append.mp hin with hin' | hin'
      · exact fetch_sub_driver_mono render w driver s (hinv hin')
      · exact fetch_sub_created_driver render w driver s hin'

/-- A candidate that never creates a session nor triggers a fetch: the
label `Rust (1.42.0)` is unsupported, so `_fetch_sub` raises before any
rendering. -/
def c5_sub_bad : Submission :=
  ⟨7, "abc002", "abc002_a", 20, "Rust (1.42.0)", "AC"⟩

/-- Counterexample to C5 as stated: on the run that first fetches
candidate id 5 (creating the rendering session) and then aborts on the
unsupported language of the next candidate, the session is created but
`driver.quit()` is never reached — the loop of `_fetch_from_atcoder` has
no `try`/`finally`, so an exception escapes before teardown and the
session leaks. -/
theorem session_teardown_cex :
    Event.driver_created ∈
      (fetch_from_atcoder c2_render ⟨[]⟩ [c2_sub5, c5_sub_bad]).events ∧
    Event.driver_quit ∉
      (fetch_from_atcoder c2_render ⟨[]⟩ [c2_sub5, c5_sub_bad]).events ∧
    (fetch_from_atcoder c2_render ⟨[]⟩ [c2_sub5, c5_sub_bad]).err =
      some (FetchError.unsupported_language "Rust (1.42.0)") := by decide

/-- C5 (amended): on every run of the fetch loop that completes without an
error, the rendering session is closed on exit whenever it was created; a
run aborted by an error does not reach the teardown (see the
counterexample). -/
theorem driver_quit_on_clean_run (render : String → Nat → Option String)
    (w : World) (subs : List Submission)
    (herr : (fetch_from_atcoder render w subs).err = none)
    (hcreated : Event.driver_created ∈
      (fetch_from_atcoder render w subs).events) :
    Event.driver_quit ∈ (fetch_from_atcoder render w subs).events :=
  run_subs_quit render subs w false [] (fun h => by cases h) herr hcreated

/-- Closed instance of C5 (amended): fetching one candidate over an empty
world creates the session and the run ends with `driver.quit()`. -/
theorem driver_quit_on_clean_run_witness :
    Event.driver_quit ∈ (fetch_from_atcoder c2_render ⟨[]⟩ [c2_sub5]).events :=
  driver_quit_on_clean_run c2_render ⟨[]⟩ [c2_sub5] (by decide) (by decide)

/-- A world is synchronized with a candidate when its problem directory
exists, the filename computation succeeds, and the skip test passes for
that filename. -/
def synced (w : World) (sub : Submission) : Prop :=
  (dfind w.dirs (sub.contest_id, sub.problem_id)).isSome = true ∧
  ∃ fname, get_file_name sub.language = Except.ok fname ∧
    skip_check (w.get_dir (sub.contest_id, sub.problem_id)) fname sub = true

theorem set_dir_has_self (w : World) (k : String × String)
    (d : ProblemDir) : (dfind (w.set_dir k d).dirs k).isSome = true := by
  show (dfind (dinsert w.dirs k d) k).isSome = true
  rw [dfind_dinsert_self]
  rfl

theorem fetch_sub_ok_synced {render : String → Nat → Option String}
    {w : World} {driver : Bool} {sub : Submission}
    (h : (fetch_sub render w driver sub).err = none) :
    synced (fetch_sub render w driver sub).world sub := by
  cases hf : get_file_name sub.language with
  | error lang => rw [fetch_sub_unsupported hf] at h; cases h
  | ok fname =>
    cases hs : skip_check (w.get_dir (sub.contest_id, sub.problem_id))
        fname sub with
    | true =>
      rw [fetch_sub_skip hf hs]
      refine ⟨mkdir_has w _, fname, hf, ?_⟩
      show skip_check ((w.mkdir _).get_dir _) fname sub = true
      rw [get_dir_mkdir]
      exact hs
    | false =>
      cases hr : render sub.contest_id sub.id with
      | none => rw [fetch_sub_miss_none hf hs hr] at h; cases h
      | some markup =>
        rw [fetch_sub_fetch hf hs hr]
        refine ⟨set_dir_has_self _ _ _, fname, hf, ?_⟩
        show skip_check (((w.mkdir _).set_dir _ _).get_dir _) fname sub
          = true
        rw [get_dir_set_self]
        simp [skip_check, dfind_dinsert_self]

theorem fetch_sub_preserves_synced {render : String → Nat → Option String}
    {w : World} {driver : Bool} {sub t : Submission}
    (hne : t.problem_id ≠ sub.problem_id) (h : synced w t) :
    synced (fetch_sub render w driver sub).world t := by
  have hkey : (t.contest_id, t.problem_id) ≠
      (sub.contest_id, sub.problem_id) := by
    intro hc
    exact hne (congrArg Prod.snd hc)
  obtain ⟨hdir, fname, hf, hs⟩ := h
  cases hfs : get_file_name sub.language with
  | error lang =>
    rw [fetch_sub_unsupported hfs]
    refine ⟨mkdir_has_other w _ _ hdir, fname, hf, ?_⟩
    show skip_check ((w.mkdir _).get_dir _) fname t = true
    rw [get_dir_mkdir]
    exact hs
  | ok fname2 =>
    cases hs2 : skip_check (w.get_dir (sub.contest_id, sub.problem_id))
        fname2 sub with
    | true =>
      rw [fetch_sub_skip hfs hs2]
      refine ⟨mkdir_has_other w _ _ hdir, fname, hf, ?_⟩
      show skip_check ((w.mkdir _).get_dir _) fname t = true
      rw [get_dir_mkdir]
      exact hs
    | false =>
      cases hr : render sub.contest_id sub.id with
      | none =>
        rw [fetch_sub_miss_none hfs hs2 hr]
        refine ⟨mkdir_has_other w _ _ hdir, fname, hf, ?_⟩
        show skip_check ((w.mkdir _).get_dir _) fname t = true
        rw [get_dir_mkdir]
        exact hs
      | some markup =>
        rw [fetch_sub_fetch hfs hs2 hr]
        refine ⟨set_dir_has _ _ _ _ (mkdir_has_other w _ _ hdir), fname, hf,
          ?_⟩
        show skip_check (((w.mkdir _).set_dir _ _).get_dir _) fname t = true
        rw [get_dir_set_ne _ _ _ _ hkey, get_dir_mkdir]
        exact hs

theorem fetch_sub_of_synced {render : String → Nat → Option String}
    {driver : Bool} {w : World} {sub : Submission} (h : synced w sub) :
    fetch_sub render w driver sub = ⟨w, driver, [], none⟩ := by
  obtain ⟨hdir, fname, hf, hs⟩ := h
  rw [fetch_sub_skip hf hs, mkdir_of_has hdir]

theorem run_subs_preserves_synced (render : String → Nat → Option String)
    (t : Submission) :
    ∀ (subs : List Submission) (w : World) (driver : Bool)
      (evs : List Event),
      (∀ u ∈ subs, u.problem_id ≠ t.problem_id) → synced w t →
      synced (run_subs render w driver evs subs).world t := by
  intro subs
  induction subs with
  | nil => intro w driver evs _ h; exact h
  | cons s rest ih =>
    intro w driver evs hne h
    have hst : synced (fetch_sub render w driver s).world t :=
      fetch_sub_preserves_synced (hne s (List.mem_cons_self s rest)).symm h
    cases he : (fetch_sub render w driver s).err with
    | some e =>
      rw [run_subs_cons_some he]
      exact hst
    | none =>
      rw [run_subs_cons_none he]
      exact ih _ _ _ (fun u hu => hne u (List.mem_cons_of_mem s hu)) hst

theorem run_subs_ok_all_synced (render : String → Nat → Option String) :
    ∀ (subs : List Submission) (w : World) (driver : Bool)
      (evs : List Event),
      subs.Pairwise (fun a b => a.problem_id ≠ b.problem_id) →
      (run_subs render w driver evs subs).err = none →
      ∀ s ∈ subs, synced (run_subs render w driver evs subs).world s := by
  intro subs
  induction subs with
  | nil => intro w driver evs _ _ s hs; cases hs
  | cons s rest ih =>
    intro w driver evs hpw herr u hu
    rw [List.pairwise_cons] at hpw
    cases he : (fetch_sub render w driver s).err with
    | some e =>
      rw [run_subs_cons_some he] at herr
      cases herr
    | none =>
      rw [run_subs_cons_none he] at herr ⊢
      rcases List.mem_cons.mp hu with hu' | hu'
      · rw [hu']
        exact run_subs_preserves_synced render s rest _ _ _
          (fun v hv => (hpw.1 v hv).symm) (fetch_sub_ok_synced he)
      · exact ih _ _ _ hpw.2 herr u hu'

theorem run_subs_all_synced_skip (render : String → Nat → Option String) :
    ∀ (subs : List Submission) (w : World) (evs : List Event),
      (∀ s ∈ subs, synced w s) →
      run_subs render w false evs subs = ⟨w, evs, none⟩ := by
  intro subs
  induction subs with
  | nil =>
    intro w evs _
    simp [run_subs]
  | cons s rest ih =>
    intro w evs hall
    have hstep : fetch_sub render w false s = ⟨w, false, [], none⟩ :=
      fetch_sub_of_synced (hall s (List.mem_cons_self s rest))
    have he : (fetch_sub render w false s).err = none := by rw [hstep]
    rw [run_subs_cons_none he, hstep]
    show run_subs render w false (evs ++ []) rest = ⟨w, evs, none⟩
    rw [List.append_nil]
    exact ih w evs (fun u hu => hall u (List.mem_cons_of_mem s hu))

/-- C3: when the orchestrator's fetch loop, run on the latest-accepted
worklist of some history, completes without error, a second run of the
loop on the same worklist over the resulting directory tree performs zero
fetches: every decision is skip, no event at all is emitted (no session
creation, no navigation, no pacing delay), no error is raised, and the
directory tree is unchanged. -/
theorem second_run_idempotent (render : String → Nat → Option String)
    (w : World) (hist : List Submission)
    (herr : (fetch_from_atcoder render w (get_latest_ac_subs hist)).err
      = none) :
    fetch_from_atcoder render
      (fetch_from_atcoder render w (get_latest_ac_subs hist)).world
      (get_latest_ac_subs hist) =
      ⟨(fetch_from_atcoder render w (get_latest_ac_subs hist)).world,
        [], none⟩ := by
  have hall := run_subs_ok_all_synced render (get_latest_ac_subs hist) w
    false [] (latest_pid_pairwise hist) herr
  exact run_subs_all_synced_skip render (get_latest_ac_subs hist) _ [] hall

/-- Closed instance of C3: after fetching the scenario worklist over an
empty world, the second run is a no-op with no events. -/
theorem second_run_idempotent_witness :
    fetch_from_atcoder c2_render
      (fetch_from_atcoder c2_render ⟨[]⟩
        (get_latest_ac_subs [spec_sub1, spec_sub2, spec_sub3])).world
      (get_latest_ac_subs [spec_sub1, spec_sub2, spec_sub3]) =
      ⟨(fetch_from_atcoder c2_render ⟨[]⟩
          (get_latest_ac_subs [spec_sub1, spec_sub2, spec_sub3])).world,
        [], none⟩ :=
  second_run_idempotent c2_render ⟨[]⟩ [spec_sub1, spec_sub2, spec_sub3]
    (by decide)

/-! ### Round trip of the extraction over built markup (C9)

The markup of one rendered line is modelled as a token list: source
characters (escaped as in a rendered page), synthetic highlighting tags,
and `&nbsp;` placeholders standing in for rendered indentation.  The whole
markup is one line-container element per source line, in order.  The
round-trip theorem shows the extraction pipeline reproduces the token
text exactly. -/

/-- One markup token of a rendered code line. -/
inductive HiTok where
  | txt : Char → HiTok
  | tag : List Char → HiTok
  | pad : HiTok
deriving DecidableEq

/-- HTML escaping of a source character as a rendered page produces it:
`&`, `<` and `>` become named entities, any other character is itself. -/
def escape_char (c : Char) : List Char :=
  if c = '&' then ['&', 'a', 'm', 'p', ';']
  else if c = '<' then ['&', 'l', 't', ';']
  else if c = '>' then ['&', 'g', 't', ';']
  else [c]

/-- Rendering of one token into markup characters. -/
def render_tok : HiTok → List Char
  | HiTok.txt c => escape_char c
  | HiTok.tag attrs => '<' :: (attrs ++ ['>'])
  | HiTok.pad => nbsp_chars

/-- Well-formedness of one token: a source character is not a newline; a
synthetic tag has a nonempty attribute region free of `<`, `>` and
newlines that is not exactly `/li` (which would be the close tag). -/
def tok_ok : HiTok → Bool
  | HiTok.txt c => decide (c ≠ '\n')
  | HiTok.tag attrs =>
    decide (attrs ≠ [] ∧ '<' ∉ attrs ∧ '>' ∉ attrs ∧ '\n' ∉ attrs ∧
      attrs ≠ ['/', 'l', 'i'])
  | HiTok.pad => true

/-- The markup of one rendered line. -/
def line_html (toks : List HiTok) : List Char :=
  (toks.map render_tok).flatten

/-- One line-container element: `<li`, the attribute region, `>`, the line
markup, `</li>`. -/
def li_block (attrs : List Char) (toks : List HiTok) : List Char :=
  li_open ++ attrs ++ '>' :: (line_html toks ++ li_close)

/-- Markup built from a list of lines (attribute region and token list per
line): one line-container per source line, in order. -/
def build_markup (lines : List (List Char × List HiTok)) : List Char :=
  (lines.map (fun p => li_block p.1 p.2)).flatten

/-- The source text of one line: its `txt` characters in order. -/
def line_text (toks : List HiTok) : List Char :=
  toks.filterMap (fun t =>
    match t with
    | HiTok.txt c => some c
    | _ => none)

/-- Well-formedness of a built line: no `>` in the li attribute region and
every token well formed. -/
def line_ok (p : List Char × List HiTok) : Bool :=
  decide ('>' ∉ p.1) && p.2.all tok_ok

theorem chars_start_with_append (x r : List Char) :
    chars_start_with (x ++ r) x = true := by
  induction x with
  | nil =>
    rw [List.nil_append]
    cases r <;> rfl
  | cons c cs ih => simp [chars_start_with, ih]

theorem not_close_of_head_ne {c : Char} (cs : List Char) (h : c ≠ '<') :
    chars_start_with (c :: cs) li_close = false := by
  simp [chars_start_with, li_close, h]

theorem escape_char_safe {c : Char} (hc : c ≠ '\n') :
    ∀ d ∈ escape_char c, d ≠ '<' ∧ d ≠ '\n' := by
  intro d hd
  rw [escape_char] at hd
  by_cases h1 : c = '&'
  · rw [if_pos h1] at hd
    simp at hd
    rcases hd with rfl | rfl | rfl | rfl | rfl <;> exact ⟨by decide, by decide⟩
  · rw [if_neg h1] at hd
    by_cases h2 : c = '<'
    · rw [if_pos h2] at hd
      simp at hd
      rcases hd with rfl | rfl | rfl | rfl <;> exact ⟨by decide, by decide⟩
    · rw [if_neg h2] at hd
      by_cases h3 : c = '>'
      · rw [if_pos h3] at hd
        simp at hd
        rcases hd with rfl | rfl | rfl | rfl <;> exact ⟨by decide, by decide⟩
      · rw [if_neg h3] at hd
        have : d = c := by simpa using hd
        rw [this]
        exact ⟨h2, hc⟩

theorem nbsp_chars_safe : ∀ d ∈ nbsp_chars, d ≠ '<' ∧ d ≠ '\n' := by decide

theorem find_close_cons_ne {c : Char} {l : List Char}
    (h1 : chars_start_with (c :: l) li_close = false) (h2 : c ≠ '\n') :
    find_close (c :: l) =
      match find_close l with
      | some p => some (c :: p.1, p.2)
      | none => none := by
  rw [find_close, if_neg (by simp [h1]), if_neg h2]

theorem find_close_walk (x : List Char)
    (hx : ∀ c ∈ x, c ≠ '<' ∧ c ≠ '\n') (l : List Char) :
    find_close (x ++ l) =
      match find_close l with
      | some p => some (x ++ p.1, p.2)
      | none => none := by
  induction x with
  | nil =>
    rw [List.nil_append]
    cases h : find_close l with
    | none => rfl
    | some p => rfl
  | cons c cs ih =>
    have h1 := hx c (List.mem_cons_self c cs)
    rw [List.cons_append, find_close_cons_ne (not_close_of_head_ne _ h1.1)
      h1.2]
    rw [ih (fun d hd => hx d (List.mem_cons_of_mem c hd))]
    cases h : find_close l with
    | none => rfl
    | some p => rfl

theorem tag_not_close (attrs : List Char) (h1 : '>' ∉ attrs)
    (h2 : attrs ≠ ['/', 'l', 'i']) (r : List Char) :
    chars_start_with ('<' :: (attrs ++ '>' :: r)) li_close = false := by
  rcases attrs with _ | ⟨x, _ | ⟨y, _ | ⟨z, _ | ⟨u, rest⟩⟩⟩⟩
  · rfl
  · simp [chars_start_with, li_close]
  · simp [chars_start_with, li_close]
  · by_cases hx : x = '/'
    · by_cases hy : y = 'l'
      · by_cases hz : z = 'i'
        · exact absurd (by rw [hx, hy, hz]) h2
        · simp [chars_start_with, li_close, hz]
      · simp [chars_start_with, li_close, hy]
    · simp [chars_start_with, li_close, hx]
  · have hu : u ≠ '>' := fun hc => h1 (by rw [← hc]; simp)
    simp [chars_start_with, li_close, hu]

theorem find_close_tok (t : HiTok) (ht : tok_ok t = true) (l : List Char) :
    find_close (render_tok t ++ l) =
      match find_close l with
      | some p => some (render_tok t ++ p.1, p.2)
      | none => none := by
  cases t with
  | txt c =>
    have hc : c ≠ '\n' := of_decide_eq_true ht
    exact find_close_walk _ (escape_char_safe hc) l
  | pad => exact find_close_walk _ nbsp_chars_safe l
  | tag attrs =>
    obtain ⟨hne, hlt, hgt, hnl, hli⟩ := of_decide_eq_true ht
    have hshape : render_tok (HiTok.tag attrs) ++ l =
        '<' :: (attrs ++ '>' :: l) := by
      simp [render_tok]
    rw [hshape, find_close_cons_ne (tag_not_close attrs hgt hli l)
      (by decide)]
    have hassoc : attrs ++ '>' :: l = (attrs ++ ['>']) ++ l := by simp
    rw [hassoc, find_close_walk (attrs ++ ['>']) ?safe l]
    case safe =>
      intro d hd
      rcases List.mem_append.mp hd with hd' | hd'
      · exact ⟨fun hc => hlt (by rw [← hc]; exact hd'),
          fun hc => hnl (by rw [← hc]; exact hd')⟩
      · have hdg : d = '>' := by simpa using hd'
        rw [hdg]
        exact ⟨by decide, by decide⟩
    cases h : find_close l with
    | none => rfl
    | some p => simp [render_tok]

theorem find_close_line (toks : List HiTok)
    (h : ∀ t ∈ toks, tok_ok t = true) (r : List Char) :
    find_close (line_html toks ++ (li_close ++ r)) =
      some (line_html toks, r) := by
  induction toks with
  | nil =>
    have hbase : find_close (li_close ++ r) = some ([], r) := by
      show find_close ('<' :: ('/' :: 'l' :: 'i' :: '>' :: r)) = some ([], r)
      rw [find_close, if_pos (by exact chars_start_with_append li_close r)]
      simp
    exact hbase
  | cons t toks ih =>
    have hshape : line_html (t :: toks) ++ (li_close ++ r) =
        render_tok t ++ (line_html toks ++ (li_close ++ r)) := by
      simp [line_html]
    rw [hshape, find_close_tok t (h t (List.mem_cons_self t toks)) _,
      ih (fun u hu => h u (List.mem_cons_of_mem t hu))]
    simp [line_html]

theorem split_until_gt_append (a : List Char) (h : '>' ∉ a)
    (r : List Char) : split_until_gt (a ++ '>' :: r) = some (a, r) := by
  induction a with
  | nil => rw [List.nil_append, split_until_gt, if_pos rfl]
  | cons c cs ih =>
    have hc : c ≠ '>' :=
      fun hcc => h (by rw [← hcc]; exact List.mem_cons_self c cs)
    rw [List.cons_append, split_until_gt, if_neg hc,
      ih (fun hin => h (List.mem_cons_of_mem c hin))]

theorem try_li_at_block (a : List Char) (toks : List HiTok)
    (r : List Char) (ha : '>' ∉ a) (h : ∀ t ∈ toks, tok_ok t = true) :
    try_li_at (li_block a toks ++ r) = some (li_block a toks, r) := by
  have hshape : li_block a toks ++ r =
      '<' :: 'l' :: 'i' ::
        (a ++ '>' :: (line_html toks ++ (li_close ++ r))) := by
    simp [li_block, li_open]
  rw [hshape, try_li_at]
  rw [if_pos (by exact chars_start_with_append li_open _)]
  simp only [List.drop_succ_cons, List.drop_zero]
  simp only [split_until_gt_append a ha, find_close_line toks h]
  simp [li_block, li_open]

theorem find_li_blocks_fuel_succ (f : Nat) (l : List Char) (hl : l ≠ []) :
    find_li_blocks_fuel (f + 1) l =
      match try_li_at l with
      | some p => p.1 :: find_li_blocks_fuel f p.2
      | none => find_li_blocks_fuel f l.tail := by
  cases l with
  | nil => exact absurd rfl hl
  | cons c cs => rfl

theorem li_block_length_pos (a : List Char) (toks : List HiTok) :
    1 ≤ (li_block a toks).length := by
  simp [li_block, li_open]

theorem find_li_blocks_fuel_build :
    ∀ (lines : List (List Char × List HiTok)) (fuel : Nat),
      (∀ p ∈ lines, line_ok p = true) →
      (build_markup lines).length ≤ fuel →
      find_li_blocks_fuel fuel (build_markup lines) =
        lines.map (fun p => li_block p.1 p.2) := by
  intro lines
  induction lines with
  | nil =>
    intro fuel _ _
    cases fuel with
    | zero => rfl
    | succ f => rfl
  | cons p rest ih =>
    intro fuel hok hfuel
    obtain ⟨a, toks⟩ := p
    have hpok := hok (a, toks) (List.mem_cons_self _ _)
    rw [line_ok] at hpok
    have h2 : ('>' ∉ a) ∧ ∀ t ∈ toks, tok_ok t = true := by
      simpa [List.all_eq_true] using hpok
    have ha : '>' ∉ a := h2.1
    have htoks : ∀ t ∈ toks, tok_ok t = true := h2.2
    have hbuild : build_markup ((a, toks) :: rest) =
        li_block a toks ++ build_markup rest := by
      simp [build_markup]
    rw [hbuild] at hfuel ⊢
    cases fuel with
    | zero =>
      exfalso
      have hlen : 1 ≤ (li_block a toks ++ build_markup rest).length := by
        rw [List.length_append]
        have := li_block_length_pos a toks
        omega
      omega
    | succ f =>
      rw [find_li_blocks_fuel_succ f _ (by
        intro hc
        have h1 : 1 ≤ (li_block a toks ++ build_markup rest).length := by
          rw [List.length_append]
          have := li_block_length_pos a toks
          omega
        rw [hc] at h1
        simp at h1)]
      simp only [try_li_at_block a toks _ ha htoks]
      have hrest : (build_markup rest).length ≤ f := by
        rw [List.length_append] at hfuel
        have h1 := li_block_length_pos a toks
        omega
      rw [ih f (fun q hq => hok q (List.mem_cons_of_mem _ hq)) hrest]
      simp

theorem find_li_blocks_build (lines : List (List Char × List HiTok))
    (hok : ∀ p ∈ lines, line_ok p = true) :
    find_li_blocks (build_markup lines) =
      lines.map (fun p => li_block p.1 p.2) :=
  find_li_blocks_fuel_build lines _ hok (Nat.le_refl _)

/-- What survives the tag-stripping pass of one token: tags vanish, text
stays escaped, placeholders stay. -/
def strip_render : HiTok → List Char
  | HiTok.txt c => escape_char c
  | HiTok.tag _ => []
  | HiTok.pad => nbsp_chars

/-- What survives the placeholder-removal pass: only the escaped text. -/
def entity_render : HiTok → List Char
  | HiTok.txt c => escape_char c
  | HiTok.tag _ => []
  | HiTok.pad => []

theorem strip_go_none_skip (x : List Char) (h : ∀ c ∈ x, c ≠ '<')
    (l : List Char) :
    strip_tags_go none (x ++ l) = x ++ strip_tags_go none l := by
  induction x with
  | nil => rfl
  | cons c cs ih =>
    rw [List.cons_append, strip_tags_go,
      if_neg (h c (List.mem_cons_self c cs)),
      ih (fun d hd => h d (List.mem_cons_of_mem c hd))]
    rfl

theorem strip_go_inside (ins : List Char) :
    ∀ acc : List Char, '>' ∉ ins → (acc ≠ [] ∨ ins ≠ []) →
      ∀ l, strip_tags_go (some acc) (ins ++ '>' :: l) =
        strip_tags_go none l := by
  induction ins with
  | nil =>
    intro acc h hne l
    rw [List.nil_append, strip_tags_go, if_pos rfl]
    rcases hne with hacc | hins
    · rw [if_neg hacc]
    · exact absurd rfl hins
  | cons c cs ih =>
    intro acc h hne l
    have hc : c ≠ '>' :=
      fun hcc => h (by rw [← hcc]; exact List.mem_cons_self c cs)
    rw [List.cons_append, strip_tags_go, if_neg hc]
    exact ih (c :: acc) (fun hd => h (List.mem_cons_of_mem c hd))
      (Or.inl (by simp)) l

theorem strip_go_tag (ins : List Char) (h : '>' ∉ ins) (hne : ins ≠ [])
    (l : List Char) :
    strip_tags_go none ('<' :: (ins ++ '>' :: l)) = strip_tags_go none l := by
  rw [strip_tags_go, if_pos rfl]
  exact strip_go_inside ins [] h (Or.inr hne) l

theorem strip_go_line (toks : List HiTok)
    (h : ∀ t ∈ toks, tok_ok t = true) (l : List Char) :
    strip_tags_go none (line_html toks ++ l) =
      (toks.map strip_render).flatten ++ strip_tags_go none l := by
  induction toks with
  | nil => rfl
  | cons t toks ih =>
    have hshape : line_html (t :: toks) ++ l =
        render_tok t ++ (line_html toks ++ l) := by
      simp [line_html]
    rw [hshape]
    have hrec := ih (fun u hu => h u (List.mem_cons_of_mem t hu))
    cases t with
    | txt c =>
      have hc : c ≠ '\n' :=
        of_decide_eq_true (h _ (List.mem_cons_self _ _))
      rw [show render_tok (HiTok.txt c) = escape_char c from rfl,
        strip_go_none_skip (escape_char c)
          (fun d hd => (escape_char_safe hc d hd).1) _, hrec]
      simp [strip_render]
    | pad =>
      rw [show render_tok HiTok.pad = nbsp_chars from rfl,
        strip_go_none_skip nbsp_chars
          (fun d hd => (nbsp_chars_safe d hd).1) _, hrec]
      simp [strip_render]
    | tag attrs =>
      obtain ⟨hne, hlt, hgt, hnl, hli⟩ :=
        of_decide_eq_true (h _ (List.mem_cons_self _ _))
      have hshape2 : render_tok (HiTok.tag attrs) ++ (line_html toks ++ l) =
          '<' :: (attrs ++ '>' :: (line_html toks ++ l)) := by
        simp [render_tok]
      rw [hshape2, strip_go_tag attrs hgt hne _, hrec]
      simp [strip_render]

theorem strip_block (a : List Char) (toks : List HiTok) (ha : '>' ∉ a)
    (h : ∀ t ∈ toks, tok_ok t = true) :
    strip_tags (li_block a toks) = (toks.map strip_render).flatten := by
  have hshape : li_block a toks =
      '<' :: (('l' :: 'i' :: a) ++ '>' :: (line_html toks ++ li_close)) := by
    simp [li_block, li_open]
  rw [strip_tags, hshape]
  rw [strip_go_tag ('l' :: 'i' :: a) ?hgt (by simp) _]
  case hgt =>
    intro hmem
    rcases List.mem_cons.mp hmem with hx | hx
    · exact absurd hx (by decide)
    · rcases List.mem_cons.mp hx with hy | hy
      · exact absurd hy (by decide)
      · exact ha hy
  rw [strip_go_line toks h li_close]
  have hclose : strip_tags_go none li_close = [] := rfl
  rw [hclose, List.append_nil]

theorem remove_nbsp_fuel_irrel :
    ∀ (f g : Nat) (l : List Char), l.length ≤ f → l.length ≤ g →
      remove_nbsp_fuel f l = remove_nbsp_fuel g l := by
  intro f
  induction f with
  | zero =>
    intro g l hf _
    have hl : l = [] := List.length_eq_zero.mp (Nat.le_zero.mp hf)
    rw [hl]
    cases g <;> rfl
  | succ f ih =>
    intro g l hf hg
    cases l with
    | nil => cases g <;> rfl
    | cons c cs =>
      cases g with
      | zero => simp at hg
      | succ g2 =>
        have hcs : cs.length ≤ f := by simpa using hf
        have hcs2 : cs.length ≤ g2 := by simpa using hg
        have hdrop : ∀ n, (cs.drop n).length ≤ cs.length := by
          intro n
          rw [List.length_drop]
          omega
        rw [remove_nbsp_fuel, remove_nbsp_fuel]
        by_cases hs : chars_start_with (c :: cs) nbsp_chars = true
        · rw [if_pos hs, if_pos hs,
            ih g2 _ (Nat.le_trans (hdrop 5) hcs) (Nat.le_trans (hdrop 5) hcs2)]
        · rw [if_neg hs, if_neg hs, ih g2 cs hcs hcs2]

theorem remove_nbsp_fuel_eq (f : Nat) (l : List Char) (h : l.length ≤ f) :
    remove_nbsp_fuel f l = remove_nbsp l :=
  remove_nbsp_fuel_irrel f l.length l h (Nat.le_refl _)

theorem unescape_fuel_irrel :
    ∀ (f g : Nat) (l : List Char), l.length ≤ f → l.length ≤ g →
      unescape_fuel f l = unescape_fuel g l := by
  intro f
  induction f with
  | zero =>
    intro g l hf _
    have hl : l = [] := List.length_eq_zero.mp (Nat.le_zero.mp hf)
    rw [hl]
    cases g <;> rfl
  | succ f ih =>
    intro g l hf hg
    cases l with
    | nil => cases g <;> rfl
    | cons c cs =>
      cases g with
      | zero => simp at hg
      | succ g2 =>
        have hcs : cs.length ≤ f := by simpa using hf
        have hcs2 : cs.length ≤ g2 := by simpa using hg
        have hdrop : ∀ n, (cs.drop n).length ≤ cs.length := by
          intro n
          rw [List.length_drop]
          omega
        rw [unescape_fuel, unescape_fuel]
        by_cases hs1 : chars_start_with (c :: cs) amp_chars = true
        · rw [if_pos hs1, if_pos hs1,
            ih g2 _ (Nat.le_trans (hdrop 4) hcs) (Nat.le_trans (hdrop 4) hcs2)]
        · rw [if_neg hs1, if_neg hs1]
          by_cases hs2 : chars_start_with (c :: cs) lt_chars = true
          · rw [if_pos hs2, if_pos hs2,
              ih g2 _ (Nat.le_trans (hdrop 3) hcs)
                (Nat.le_trans (hdrop 3) hcs2)]
          · rw [if_neg hs2, if_neg hs2]
            by_cases hs3 : chars_start_with (c :: cs) gt_chars = true
            · rw [if_pos hs3, if_pos hs3,
                ih g2 _ (Nat.le_trans (hdrop 3) hcs)
                  (Nat.le_trans (hdrop 3) hcs2)]
            · rw [if_neg hs3, if_neg hs3]
              by_cases hs4 : chars_start_with (c :: cs) nbsp_chars = true
              · rw [if_pos hs4, if_pos hs4,
                  ih g2 _ (Nat.le_trans (hdrop 5) hcs)
                    (Nat.le_trans (hdrop 5) hcs2)]
              · rw [if_neg hs4, if_neg hs4, ih g2 cs hcs hcs2]

theorem unescape_fuel_eq (f : Nat) (l : List Char) (h : l.length ≤ f) :
    unescape_fuel f l = unescape_chars l :=
  unescape_fuel_irrel f l.length l h (Nat.le_refl _)

theorem remove_nbsp_nbsp (rest : List Char) :
    remove_nbsp ('&' :: 'n' :: 'b' :: 's' :: 'p' :: ';' :: rest) =
      remove_nbsp rest := by
  show remove_nbsp_fuel (rest.length + 5) rest = remove_nbsp rest
  exact remove_nbsp_fuel_eq _ rest (by omega)

theorem remove_nbsp_cons_ne {c : Char} (cs : List Char) (h : c ≠ '&') :
    remove_nbsp (c :: cs) = c :: remove_nbsp cs := by
  have hs : chars_start_with (c :: cs) nbsp_chars = false := by
    simp [chars_start_with, nbsp_chars, h]
  show remove_nbsp_fuel (cs.length + 1) (c :: cs) = c :: remove_nbsp cs
  rw [remove_nbsp_fuel, if_neg (by simp [hs])]
  rfl

theorem remove_nbsp_amp_head (x : List Char) :
    remove_nbsp ('&' :: 'a' :: 'm' :: 'p' :: ';' :: x) =
      '&' :: remove_nbsp ('a' :: 'm' :: 'p' :: ';' :: x) := rfl

theorem remove_nbsp_lt_head (x : List Char) :
    remove_nbsp ('&' :: 'l' :: 't' :: ';' :: x) =
      '&' :: remove_nbsp ('l' :: 't' :: ';' :: x) := rfl

theorem remove_nbsp_gt_head (x : List Char) :
    remove_nbsp ('&' :: 'g' :: 't' :: ';' :: x) =
      '&' :: remove_nbsp ('g' :: 't' :: ';' :: x) := rfl

theorem unescape_amp (rest : List Char) :
    unescape_chars ('&' :: 'a' :: 'm' :: 'p' :: ';' :: rest) =
      '&' :: unescape_chars rest := by
  show '&' :: unescape_fuel (rest.length + 4) rest = '&' :: unescape_chars rest
  rw [unescape_fuel_eq _ rest (by omega)]

theorem unescape_lt (rest : List Char) :
    unescape_chars ('&' :: 'l' :: 't' :: ';' :: rest) =
      '<' :: unescape_chars rest := by
  show '<' :: unescape_fuel (rest.length + 3) rest = '<' :: unescape_chars rest
  rw [unescape_fuel_eq _ rest (by omega)]

theorem unescape_gt (rest : List Char) :
    unescape_chars ('&' :: 'g' :: 't' :: ';' :: rest) =
      '>' :: unescape_chars rest := by
  show '>' :: unescape_fuel (rest.length + 3) rest = '>' :: unescape_chars rest
  rw [unescape_fuel_eq _ rest (by omega)]

theorem unescape_cons_ne {c : Char} (cs : List Char) (h : c ≠ '&') :
    unescape_chars (c :: cs) = c :: unescape_chars cs := by
  have h1 : chars_start_with (c :: cs) amp_chars = false := by
    simp [chars_start_with, amp_chars, h]
  have h2 : chars_start_with (c :: cs) lt_chars = false := by
    simp [chars_start_with, lt_chars, h]
  have h3 : chars_start_with (c :: cs) gt_chars = false := by
    simp [chars_start_with, gt_chars, h]
  have h4 : chars_start_with (c :: cs) nbsp_chars = false := by
    simp [chars_start_with, nbsp_chars, h]
  show unescape_fuel (cs.length + 1) (c :: cs) = c :: unescape_chars cs
  rw [unescape_fuel, if_neg (by simp [h1]), if_neg (by simp [h2]),
    if_neg (by simp [h3]), if_neg (by simp [h4])]
  rfl

theorem remove_nbsp_escape (c : Char) (x : List Char) :
    remove_nbsp (escape_char c ++ x) = escape_char c ++ remove_nbsp x := by
  rw [escape_char]
  by_cases h1 : c = '&'
  · rw [if_pos h1]
    show remove_nbsp ('&' :: 'a' :: 'm' :: 'p' :: ';' :: x) =
      '&' :: 'a' :: 'm' :: 'p' :: ';' :: remove_nbsp x
    rw [remove_nbsp_amp_head, remove_nbsp_cons_ne _ (by decide),
      remove_nbsp_cons_ne _ (by decide), remove_nbsp_cons_ne _ (by decide),
      remove_nbsp_cons_ne _ (by decide)]
  · rw [if_neg h1]
    by_cases h2 : c = '<'
    · rw [if_pos h2]
      show remove_nbsp ('&' :: 'l' :: 't' :: ';' :: x) =
        '&' :: 'l' :: 't' :: ';' :: remove_nbsp x
      rw [remove_nbsp_lt_head, remove_nbsp_cons_ne _ (by decide),
        remove_nbsp_cons_ne _ (by decide), remove_nbsp_cons_ne _ (by decide)]
    · rw [if_neg h2]
      by_cases h3 : c = '>'
      · rw [if_pos h3]
        show remove_nbsp ('&' :: 'g' :: 't' :: ';' :: x) =
          '&' :: 'g' :: 't' :: ';' :: remove_nbsp x
        rw [remove_nbsp_gt_head, remove_nbsp_cons_ne _ (by decide),
          remove_nbsp_cons_ne _ (by decide),
          remove_nbsp_cons_ne _ (by decide)]
      · rw [if_neg h3]
        show remove_nbsp (c :: x) = c :: remove_nbsp x
        exact remove_nbsp_cons_ne _ h1

theorem unescape_escape (c : Char) (x : List Char) :
    unescape_chars (escape_char c ++ x) = c :: unescape_chars x := by
  rw [escape_char]
  by_cases h1 : c = '&'
  · rw [if_pos h1]
    show unescape_chars ('&' :: 'a' :: 'm' :: 'p' :: ';' :: x) =
      c :: unescape_chars x
    rw [unescape_amp, h1]
  · rw [if_neg h1]
    by_cases h2 : c = '<'
    · rw [if_pos h2]
      show unescape_chars ('&' :: 'l' :: 't' :: ';' :: x) =
        c :: unescape_chars x
      rw [unescape_lt, h2]
    · rw [if_neg h2]
      by_cases h3 : c = '>'
      · rw [if_pos h3]
        show unescape_chars ('&' :: 'g' :: 't' :: ';' :: x) =
          c :: unescape_chars x
        rw [unescape_gt, h3]
      · rw [if_neg h3]
        exact unescape_cons_ne _ h1

theorem remove_nbsp_line (toks : List HiTok) :
    remove_nbsp ((toks.map strip_render).flatten) =
      (toks.map entity_render).flatten := by
  induction toks with
  | nil => rfl
  | cons t toks ih =>
    cases t with
    | txt c =>
      have hshape : ((HiTok.txt c :: toks).map strip_render).flatten =
          escape_char c ++ (toks.map strip_render).flatten := by
        simp [strip_render]
      rw [hshape, remove_nbsp_escape, ih]
      simp [entity_render]
    | tag attrs =>
      have hshape : ((HiTok.tag attrs :: toks).map strip_render).flatten =
          (toks.map strip_render).flatten := by
        simp [strip_render]
      rw [hshape, ih]
      simp [entity_render]
    | pad =>
      have hshape : ((HiTok.pad :: toks).map strip_render).flatten =
          '&' :: 'n' :: 'b' :: 's' :: 'p' :: ';' ::
            (toks.map strip_render).flatten := by
        simp [strip_render, nbsp_chars]
      rw [hshape, remove_nbsp_nbsp, ih]
      simp [entity_render]

theorem unescape_line (toks : List HiTok) :
    unescape_chars ((toks.map entity_render).flatten) = line_text toks := by
  induction toks with
  | nil => rfl
  | cons t toks ih =>
    cases t with
    | txt c =>
      have hshape : ((HiTok.txt c :: toks).map entity_render).flatten =
          escape_char c ++ (toks.map entity_render).flatten := by
        simp [entity_render]
      rw [hshape, unescape_escape, ih]
      simp [line_text]
    | tag attrs =>
      have hshape : ((HiTok.tag attrs :: toks).map entity_render).flatten =
          (toks.map entity_render).flatten := by
        simp [entity_render]
      rw [hshape, ih]
      simp [line_text]
    | pad =>
      have hshape : ((HiTok.pad :: toks).map entity_render).flatten =
          (toks.map entity_render).flatten := by
        simp [entity_render]
      rw [hshape, ih]
      simp [line_text]

theorem process_li_block (a : List Char) (toks : List HiTok)
    (ha : '>' ∉ a) (h : ∀ t ∈ toks, tok_ok t = true) :
    process_li (li_block a toks) = line_text toks ++ ['\n'] := by
  rw [process_li, strip_block a toks ha h, remove_nbsp_line, unescape_line]

/-- C9: for every plain-text source presented as a list of lines, markup
built with one line-container element per source line (in order),
synthetic highlighting tags and non-breaking-space placeholder tokens, is
extracted back to exactly the source text: each line's characters in
order, each line terminated by a newline — blank lines included, the
placeholder artifacts excluded. -/
theorem code_extractor_round_trip
    (lines : List (List Char × List HiTok))
    (hok : ∀ p ∈ lines, line_ok p = true) :
    get_sub_code_chars (build_markup lines) =
      (lines.map (fun p => line_text p.2 ++ ['\n'])).flatten := by
  rw [get_sub_code_chars, find_li_blocks_build lines hok, List.map_map]
  congr 1
  apply List.map_congr_left
  intro p hp
  have h2 : ('>' ∉ p.1) ∧ ∀ t ∈ p.2, tok_ok t = true := by
    simpa [line_ok, List.all_eq_true] using hok p hp
  exact process_li_block p.1 p.2 h2.1 h2.2

/-- Demonstration input for the round trip: a highlighted line with a
placeholder and escaped characters, followed by a blank line. -/
def c9_demo : List (List Char × List HiTok) :=
  [([' ', 'c', 'l', 'a', 's', 's', '=', '"', 'L', '0', '"'],
    [HiTok.tag ['s', 'p', 'a', 'n'], HiTok.txt 'x',
     HiTok.tag ['/', 's', 'p', 'a', 'n'], HiTok.pad, HiTok.txt '=',
     HiTok.txt ' ', HiTok.txt '&', HiTok.txt '<']),
   ([], [])]

/-- Closed instance of C9 at the demonstration input: the extraction
returns the source text `x= &<` plus a blank line, each newline
terminated, with the placeholder dropped. -/
theorem code_extractor_round_trip_witness :
    get_sub_code_chars (build_markup c9_demo) =
      ['x', '=', ' ', '&', '<', '\n', '\n'] := by
  have h := code_extractor_round_trip c9_demo (by decide)
  rw [h]
  decide
